import Mathlib

/-!
# Mini calculator server (`server.c`): embedding and verification

The development embeds the request pipeline of `server.c`
(`strtok`-based `parser`, `calculator`, the response selection in `main`) and
the `select()` event loop with its `clients` table, and proves properties of
these definitions.

Conventions of the embedding:

* a C string is the list of its bytes (as `Nat`) up to, and without, the
  terminating NUL; the bytes received by `recv` may contain NUL bytes, and
  `cstr` cuts them at the first one, as every `str*` function does;
* `float` is IEEE-754 binary32 with round-to-nearest-even; a finite value is
  kept as a sign and a magnitude counted in units of `2 ^ (-149)`, the spacing
  of the subnormal numbers, which every finite binary32 value is a multiple of;
* undefined behaviour of the C program (a null pointer passed to `strcmp`, a
  write past the end of a local array or of an `fd_set`, ...) is a `Res.fault`,
  and so is the end of the process in `die`.
-/

namespace CalcServer

/-! ## Bytes and C strings -/

/-- The bytes of an ASCII string literal. -/
def bytes (s : String) : List Nat := s.toList.map Char.toNat

/-- The C string stored in a buffer: the bytes before the first NUL. -/
def cstr (buf : List Nat) : List Nat := buf.takeWhile (fun c => c != 0)

/-- Ways in which a run of the C program ends: it leaves defined behaviour
(a null pointer is dereferenced, an uninitialised variable is read, a write
goes past the end of an array, an access is outside an object), or `die` ends
the process. -/
inductive Fault where
  | nullDeref
  | uninitRead
  | bufferOverflow
  | outOfBounds
  | died
  deriving DecidableEq, Repr

/-- Result of running a piece of the C program. -/
inductive Res (α : Type) where
  | ok (val : α)
  | fault (f : Fault)
  deriving DecidableEq, Repr

/-- What one call of `strtok` yields when it finds a token: the delimiter
bytes it stepped over, the token, and the string at the saved pointer, from
which `strtok(NULL, ...)` continues. The scanned buffer then holds
`skipped ++ token` as its C string, since the delimiter that ended the token
was overwritten by NUL. -/
structure Tok where
  skipped : List Nat
  token : List Nat
  rest : List Nat
  deriving DecidableEq, Repr

/-- One call `strtok(s, delim)` on the C string `s`; `none` is the `NULL` result. -/
def strtok (s : List Nat) (delim : List Nat) : Option Tok :=
  let s1 := s.dropWhile (fun c => delim.contains c)
  if s1 = [] then none
  else some
    { skipped := s.takeWhile (fun c => delim.contains c)
      token := s1.takeWhile (fun c => !delim.contains c)
      rest := (s1.dropWhile (fun c => !delim.contains c)).tail }

/-- Test `strncmp(a, b, n) == 0` on C strings. -/
def strncmpEq (a b : List Nat) (n : Nat) : Bool := a.take n == b.take n

/-- Function `isdigit` of `<ctype.h>` in the C locale. -/
def isdigit (c : Nat) : Bool := 48 ≤ c && c ≤ 57

/-- The loops `while (*ptr != 0) { if (!isdigit(*ptr)) return -1; ptr++; }`:
`true` when the loop runs to the end of the token. -/
def digitsOnly : List Nat → Bool
  | [] => true
  | c :: cs => if !isdigit c then false else digitsOnly cs

/-- Value of a string of decimal digits, most significant digit first. -/
def decVal (token : List Nat) : Nat := token.foldl (fun acc c => 10 * acc + (c - 48)) 0

/-! ## IEEE-754 arithmetic -/

/-- Worker of `bitLen`. -/
def bitLenAux : Nat → Nat → Nat → Nat
  | 0, _, acc => acc
  | fuel + 1, n, acc => if n = 0 then acc else bitLenAux fuel (n / 2) (acc + 1)

/-- Number of binary digits of `n` (`0` for `0`). -/
def bitLen (n : Nat) : Nat := bitLenAux n n 0

/-- Nearest natural number to `n / d`, ties to the even one. -/
def roundHalfEven (n d : Nat) : Nat :=
  let q := n / d
  let r := n % d
  if 2 * r < d then q else if d < 2 * r then q + 1 else q + q % 2

/-- A binary floating-point format: `prec` significand bits, finite values are
multiples of `2 ^ (-emin)`, and a rounded magnitude of `2 ^ emax` or more
overflows to infinity. -/
structure FloatFormat where
  prec : Nat
  emin : Nat
  emax : Nat

/-- IEEE-754 single precision (`float`). -/
def binary32 : FloatFormat := { prec := 24, emin := 149, emax := 128 }

/-- IEEE-754 double precision (`double`). -/
def binary64 : FloatFormat := { prec := 53, emin := 1074, emax := 1024 }

/-- Round-to-nearest-even of the non-negative rational `n / d` in the format,
with unbounded exponent range upwards; the result is counted in units of
`2 ^ (-emin)`. Below `2 ^ prec` units the spacing of the format is one unit;
a magnitude of `L > prec` bits is rounded to a multiple of `2 ^ (L - prec)`. -/
def roundUnits (fmt : FloatFormat) (n d : Nat) : Nat :=
  let scaled := n * 2 ^ fmt.emin
  let s := bitLen (scaled / d) - fmt.prec
  roundHalfEven scaled (d * 2 ^ s) * 2 ^ s

/-- Whether a rounded magnitude, in units, is beyond the finite range. -/
def overflows (fmt : FloatFormat) (v : Nat) : Bool := 2 ^ (fmt.emax + fmt.emin) ≤ v

/-- A `float` value: a finite value `(-1) ^ neg * v * 2 ^ (-149)`, an infinity,
or a NaN. -/
inductive F32 where
  | fin (neg : Bool) (v : Nat)
  | inf (neg : Bool)
  | nan (neg : Bool)
  deriving DecidableEq, Repr

namespace F32

/-- The denominator of the unit: `2 ^ 149`. -/
def unit : Nat := 2 ^ 149

/-- The NaN produced by an invalid operation (`inf - inf`, `0 * inf`,
`inf / inf`, `0 / 0`). Its sign bit is set on x86-64, the usual target. -/
def invalid : F32 := nan true

/-- The `float` nearest to `(-1) ^ neg * n / d`, for `d > 0`. -/
def round (neg : Bool) (n d : Nat) : F32 :=
  let v := roundUnits binary32 n d
  if overflows binary32 v then inf neg else fin neg v

/-- The `float` with the value of a natural number that is representable. -/
def ofNat (n : Nat) : F32 := fin false (n * unit)

/-- Negation. -/
def neg : F32 → F32
  | fin s v => fin (!s) v
  | inf s => inf (!s)
  | nan s => nan (!s)

/-- Addition `a + b` of two `float`s. -/
def add : F32 → F32 → F32
  | nan s, _ => nan s
  | _, nan t => nan t
  | inf s, inf t => if s = t then inf s else invalid
  | inf s, fin _ _ => inf s
  | fin _ _, inf t => inf t
  | fin s v, fin t w =>
    if s = t then round s (v + w) unit
    else if w < v then round s (v - w) unit
    else if v < w then round t (w - v) unit
    else fin false 0

/-- Subtraction `a - b`. -/
def sub (a b : F32) : F32 := add a (neg b)

/-- Multiplication `a * b`. -/
def mul : F32 → F32 → F32
  | nan s, _ => nan s
  | _, nan t => nan t
  | inf s, inf t => inf (s != t)
  | inf s, fin t w => if w = 0 then invalid else inf (s != t)
  | fin s v, inf t => if v = 0 then invalid else inf (s != t)
  | fin s v, fin t w => round (s != t) (v * w) (unit * unit)

/-- Division `a / b`. -/
def div : F32 → F32 → F32
  | nan s, _ => nan s
  | _, nan t => nan t
  | inf _, inf _ => invalid
  | inf s, fin t _ => inf (s != t)
  | fin s _, inf t => fin (s != t) 0
  | fin s v, fin t w =>
    if w = 0 then (if v = 0 then invalid else inf (s != t))
    else round (s != t) v w

/-- The comparison `b == 0`. -/
def isZero : F32 → Bool
  | fin _ v => v == 0
  | _ => false

end F32

/-- The conversion `(float) atof(token)` for a token of decimal digits: glibc
`strtod` returns the `double` nearest to the decimal value (`HUGE_VAL` on
overflow), and the assignment to a `float` rounds a second time. -/
def atof (token : List Nat) : F32 :=
  let d := roundUnits binary64 (decVal token) 1
  if overflows binary64 d then F32.inf false
  else F32.round false d (2 ^ binary64.emin)

/-! ## Rendering with `%.6f` -/

/-- Worker of `decimal`. -/
def decimalAux : Nat → Nat → List Nat → List Nat
  | 0, _, acc => acc
  | fuel + 1, n, acc =>
    if n / 10 = 0 then (48 + n % 10) :: acc
    else decimalAux fuel (n / 10) ((48 + n % 10) :: acc)

/-- Decimal digits of a natural number, as ASCII bytes. -/
def decimal (n : Nat) : List Nat := decimalAux (n + 1) n []

/-- The six digits after the decimal point, for a count `k` of millionths. -/
def frac6 (k : Nat) : List Nat :=
  [48 + k / 100000 % 10, 48 + k / 10000 % 10, 48 + k / 1000 % 10,
   48 + k / 100 % 10, 48 + k / 10 % 10, 48 + k % 10]

/-- The text `printf("%.6f", x)` produces for a `float` `x` (promoted to
`double` without change of value): glibc prints the exact binary value rounded
to six decimals, ties to even. -/
def fmt6 : F32 → List Nat
  | F32.nan s => (if s then bytes "-" else []) ++ bytes "nan"
  | F32.inf s => (if s then bytes "-" else []) ++ bytes "inf"
  | F32.fin s v =>
    let k := roundHalfEven (v * 10 ^ 6) F32.unit
    (if s then bytes "-" else []) ++ decimal (k / 10 ^ 6) ++ bytes "." ++ frac6 (k % 10 ^ 6)

/-! ## `parser` and `calculator` -/

/-- Size of the receive buffer. -/
def BUF_SIZE : Nat := 1024

/-- The table `opcoes_server`. -/
def opcoes_server : List (List Nat) :=
  [bytes "QUIT", bytes "ADD", bytes "SUB", bytes "MUL", bytes "DIV"]

/-- The variable `num_opcoes`. -/
def num_opcoes : Nat := 5

/-- The loop `for (i = 0; i < num_opcoes; i++) if (!strcmp(token, opcoes_server[i])) break;`
with `fuel` iterations left: the value of `i` when the loop is left. -/
def findOpcao (token : List Nat) : Nat → Nat → Nat
  | 0, i => i
  | fuel + 1, i =>
    if opcoes_server[i]? = some token then i else findOpcao token fuel (i + 1)

/-- Function `parser`: the status it returns and the contents of `*a` and `*b`
afterwards (`none` while not written). -/
def parser (buf : List Nat) (buf_size : Nat) (a b : Option F32) :
    Res (Int × Option F32 × Option F32) :=
  match strtok (cstr buf) (bytes "\n") with
  | none => .ok (-1, a, b)
  | some t0 =>
    if strncmpEq t0.token (bytes "QUIT") buf_size then .ok (0, a, b)
    else
      match strtok (t0.skipped ++ t0.token) (bytes " ") with
      | none => .fault .nullDeref
      | some t1 =>
        let i := findOpcao t1.token num_opcoes 0
        if i = num_opcoes then .ok (-1, a, b)
        else if i = 0 then .ok ((i : Int), a, b)
        else
          match strtok t1.rest (bytes " ") with
          | none => .ok (-1, a, b)
          | some t2 =>
            if !digitsOnly t2.token then .ok (-1, a, b)
            else
              let a := some (atof t2.token)
              match strtok t2.rest (bytes " ") with
              | none => .ok (-1, a, b)
              | some t3 =>
                if !isdigit (t3.token.headD 0) then .ok (-1, a, b)
                else if !digitsOnly t3.token then .ok (-1, a, b)
                else
                  let b := some (atof t3.token)
                  match strtok t3.rest (bytes " ") with
                  | some _ => .ok (-1, a, b)
                  | none => .ok ((i : Int), a, b)

/-- The arithmetic of one `case` of `calculator`, reading the locals `a` and `b`. -/
def binop (f : F32 → F32 → F32) (status : Int) (a b : Option F32) : Res (Int × F32) :=
  match a, b with
  | some a, some b => .ok (status, f a b)
  | _, _ => .fault .uninitRead

/-- Function `calculator`: the status it returns and the contents of `*x`
afterwards, `x` being the contents before. -/
def calculator (buf : List Nat) (buf_size : Nat) (x : F32) : Res (Int × F32) :=
  match parser buf buf_size none none with
  | .fault f => .fault f
  | .ok (status, a, b) =>
    if status = 1 then binop F32.add status a b
    else if status = 2 then binop F32.sub status a b
    else if status = 3 then binop F32.mul status a b
    else if status = 4 then
      match b with
      | none => .fault .uninitRead
      | some bv => if bv.isZero then .ok (-2, x) else binop F32.div status a b
    else .ok (status, x)

/-- What `main` does with a request once `calculator` has returned. -/
inductive Action where
  | closeConn
  | send (msg : List Nat)
  deriving DecidableEq, Repr

/-- The branch of `main` that follows a successful `recv`: `recvd` are the
bytes received, `buf[n] = 0` terminates them. -/
def respond (recvd : List Nat) : Res Action :=
  match calculator recvd BUF_SIZE (F32.fin false 0) with
  | .fault f => .fault f
  | .ok (status, x) =>
    if status = 0 then .ok .closeConn
    else if status = -1 then .ok (.send (bytes "ERR EINV entrada_invalida\n"))
    else if status = -2 then .ok (.send (bytes "ERR EZDV divisao_por_zero\n"))
    else
      let number := fmt6 x
      if 30 < number.length + 1 then .fault .bufferOverflow
      else .ok (.send (bytes "OK " ++ number ++ bytes "\n"))

/-! ## The request grammar, for the statements -/

/-- The space-separated tokens of a string: its maximal runs of bytes other
than the space, in order. -/
def spaceTokens (s : List Nat) : List (List Nat) :=
  (s.splitOn 32).filter (fun t => !t.isEmpty)

/-- The line terminators that `strtok(buf, "\n")` steps over at the start of
the received text. -/
def leadingNewlines (buf : List Nat) : List Nat :=
  (cstr buf).takeWhile (fun c => c == 10)

/-- The first non-empty line of the received text: what follows the leading
line terminators, up to the next one. -/
def firstLine (buf : List Nat) : List Nat :=
  ((cstr buf).dropWhile (fun c => c == 10)).takeWhile (fun c => c != 10)

/-- The four operation keywords with the status `parser` returns for each. -/
def opCode (t : List Nat) : Option Int :=
  if t = bytes "ADD" then some 1
  else if t = bytes "SUB" then some 2
  else if t = bytes "MUL" then some 3
  else if t = bytes "DIV" then some 4
  else none

/-- The request grammar as `parser` reads it, on the space-separated tokens of
the line: the status and the contents of `*a` and `*b`. No token at all makes
`parser` hand a null pointer to `strcmp`. -/
def parseTokens (toks : List (List Nat)) (a b : Option F32) :
    Res (Int × Option F32 × Option F32) :=
  match toks with
  | [] => .fault .nullDeref
  | op :: args =>
    if op = bytes "QUIT" then .ok (0, a, b)
    else
      match opCode op, args with
      | none, _ => .ok (-1, a, b)
      | some _, [] => .ok (-1, a, b)
      | some _, [ta] => if digitsOnly ta then .ok (-1, some (atof ta), b) else .ok (-1, a, b)
      | some i, ta :: tb :: more =>
        if !digitsOnly ta then .ok (-1, a, b)
        else if !digitsOnly tb then .ok (-1, some (atof ta), b)
        else if more = [] then .ok (i, some (atof ta), some (atof tb))
        else .ok (-1, some (atof ta), some (atof tb))

/-- A token in the sense of the grammar: not empty, and without NUL, line
terminator or space. -/
def PlainToken (t : List Nat) : Prop := t ≠ [] ∧ ∀ c ∈ t, c ≠ 0 ∧ c ≠ 10 ∧ c ≠ 32

/-- The `float` operation `calculator` performs for a positive status. -/
def arith (status : Int) (a b : F32) : F32 :=
  if status = 1 then a.add b
  else if status = 2 then a.sub b
  else if status = 3 then a.mul b
  else a.div b

/-- The exact result of the operation of a status on two natural numbers, when
it is an integer. -/
def exactInt (status : Int) (x y : Nat) : Option Int :=
  if status = 1 then some ((x : Int) + y)
  else if status = 2 then some ((x : Int) - y)
  else if status = 3 then some ((x : Int) * y)
  else if y ≠ 0 ∧ y ∣ x then some ((x / y : Nat) : Int)
  else none

/-- The text of an integer with six zero decimals, as in `-3.000000`. -/
def intText (z : Int) : List Nat :=
  (if z < 0 then bytes "-" else []) ++ decimal z.natAbs ++ bytes ".000000"

/-- The request grammar of the wire protocol on the tokens of a line, tokens
being separated by one or more spaces: `QUIT` first, or an operation keyword
and two operands of decimal digits. -/
def RequestTokens (toks : List (List Nat)) : Prop :=
  toks.head? = some (bytes "QUIT") ∨
    ∃ op ta tb, (opCode op).isSome = true ∧ digitsOnly ta = true ∧ digitsOnly tb = true ∧
      toks = [op, ta, tb]

/-- The request grammar of the specification on a line: `QUIT`, or `<OP> <A> <B>`
with exactly one space between the tokens and operands that are non-empty
strings of decimal digits. -/
def specGrammar (line : List Nat) : Bool :=
  line == bytes "QUIT" ||
    match line.splitOn 32 with
    | [op, ta, tb] =>
      (opCode op).isSome && !ta.isEmpty && digitsOnly ta && !tb.isEmpty && digitsOnly tb
    | _ => false

/-- The lines that end the connection: the first non-empty line of the text is
`QUIT`, or the text does not start with a line terminator and the first
space-separated token of its first line is `QUIT`. -/
def TerminateLine (buf : List Nat) : Prop :=
  firstLine buf = bytes "QUIT" ∨
    (leadingNewlines buf = [] ∧ (spaceTokens (firstLine buf)).head? = some (bytes "QUIT"))

/-- The response to a request that is not valid. -/
def errInvalid : List Nat := bytes "ERR EINV entrada_invalida\n"

/-- The response to a division by zero. -/
def errDivZero : List Nat := bytes "ERR EZDV divisao_por_zero\n"

/-! ## The event loop of `main` -/

/-- Observable effects of the event loop. -/
inductive Event where
  | recv (slot : Nat) (fd : Int)
  | send (fd : Int) (msg : List Nat)
  | close (fd : Int)
  deriving DecidableEq, Repr

/-- The variables of `main` that make up the connection registry. The array
`clients` has `MAX_CLIENTS` entries, `MAX_CLIENTS` being `FD_SETSIZE` of the
platform: the length of the list. -/
structure Server where
  listen_fd : Int
  clients : List Int
  allset : Finset Int
  maxfd : Int
  max_i : Int
  deriving DecidableEq

/-- The constant `FD_SETSIZE`, the number of descriptors an `fd_set` has a bit
for: `MAX_CLIENTS` is defined as `FD_SETSIZE`, and `clients` has `MAX_CLIENTS`
entries. -/
def Server.FD_SETSIZE (s : Server) : Nat := s.clients.length

/-- The registry with every slot free and only the listening socket watched. -/
def Server.base (listen_fd : Int) (fdSetSize : Nat) : Server :=
  { listen_fd := listen_fd
    clients := List.replicate fdSetSize (-1)
    allset := {listen_fd}
    maxfd := listen_fd
    max_i := -1 }

/-- The way of `main` to the loop, for the handle `listen_fd` that `socket`
returned and with `setsockopt`, `bind` and `listen` succeeding: a negative
handle ends in `die("socket")`, and `FD_SET(listen_fd, &allset)` writes past
the set for a handle of `FD_SETSIZE` or more. -/
def Server.init (listen_fd : Int) (fdSetSize : Nat) : Res Server :=
  if listen_fd < 0 then .fault .died
  else if (fdSetSize : Int) ≤ listen_fd then .fault .outOfBounds
  else .ok (Server.base listen_fd fdSetSize)

/-- The loop `for (i = 0; i < MAX_CLIENTS; i++) if (clients[i] < 0) { clients[i] = connfd; break; }`
started at index `i` on the entries from `i` on: the entries afterwards and
the value of `i` when the loop is left. -/
def insertLoop (connfd : Int) : List Int → Nat → List Int × Nat
  | [], i => ([], i)
  | c :: cs, i =>
    if c < 0 then (connfd :: cs, i)
    else ((insertLoop connfd cs (i + 1)).1.cons c, (insertLoop connfd cs (i + 1)).2)

/-- The greeting sent to a registered connection. -/
def welcome : List Nat := bytes "Bem-vindo a mini calculadora!\n"

/-- The block run when the listening socket is readable; `connfd` is what
`accept` returned. After the handle is stored in a slot,
`FD_SET(connfd, &allset)` is done without a test of `connfd` against
`FD_SETSIZE`, and writes past the set for a handle of `FD_SETSIZE` or more. -/
def acceptStep (s : Server) (connfd : Int) : Res (Server × List Event) :=
  if connfd < 0 then .ok (s, [])
  else
    let r := insertLoop connfd s.clients 0
    if r.2 = s.clients.length then .ok ({ s with clients := r.1 }, [Event.close connfd])
    else if (s.FD_SETSIZE : Int) ≤ connfd then .fault .outOfBounds
    else
      .ok ({ s with
          clients := r.1
          allset := insert connfd s.allset
          maxfd := if s.maxfd < connfd then connfd else s.maxfd
          max_i := if s.max_i < (r.2 : Int) then (r.2 : Int) else s.max_i },
        [Event.send connfd welcome])

/-- What `recv` returned: the count `n` and the contents of `buf` after the
call, of which the first `n` bytes were received when `n > 0`. -/
structure Recv where
  n : Int
  data : List Nat
  deriving DecidableEq, Repr

/-- The request in `buf` after `buf[n] = 0`. -/
def Recv.request (r : Recv) : List Nat := r.data.take r.n.toNat

/-- The state after `close(fd); FD_CLR(fd, &allset); clients[i] = -1;`. -/
def dropClient (s : Server) (i : Nat) (fd : Int) : Server :=
  { s with allset := s.allset.erase fd, clients := s.clients.set i (-1) }

/-- The body of the client scan for a slot `i` whose handle `fd` is in the
ready set; `r` is what `recv` returns. -/
def serviceSlot (s : Server) (i : Nat) (fd : Int) (r : Recv) : Res (Server × List Event) :=
  if r.n ≤ 0 then .ok (dropClient s i fd, [Event.recv i fd, Event.close fd])
  else
    match respond r.request with
    | .fault f => .fault f
    | .ok .closeConn => .ok (dropClient s i fd, [Event.recv i fd, Event.close fd])
    | .ok (.send msg) => .ok (s, [Event.recv i fd, Event.send fd msg])

/-- The loop `for (int i = 0; i <= max_i; i++)` over the clients, with `fuel`
iterations left and at index `i`; `recvOf i` is what `recv` returns when slot
`i` is read. -/
def scanClients (rset : Finset Int) (recvOf : Nat → Recv) :
    Nat → Nat → Server → Int → Res (Server × List Event)
  | 0, _, s, _ => .ok (s, [])
  | fuel + 1, i, s, nready =>
    match s.clients[i]? with
    | none => .fault .outOfBounds
    | some fd =>
      if fd < 0 then scanClients rset recvOf fuel (i + 1) s nready
      else if fd ∈ rset then
        match serviceSlot s i fd (recvOf i) with
        | .fault f => .fault f
        | .ok (s1, ev) =>
          if nready - 1 ≤ 0 then .ok (s1, ev)
          else
            match scanClients rset recvOf fuel (i + 1) s1 (nready - 1) with
            | .fault f => .fault f
            | .ok (s2, ev2) => .ok (s2, ev ++ ev2)
      else scanClients rset recvOf fuel (i + 1) s nready

/-- What the environment supplies in one cycle: the ready set and count
returned by `select`, whether `errno` is `EINTR` when the count is negative,
the result of `accept`, and the result of `recv` per slot. -/
structure Env where
  rset : Finset Int
  nready : Int
  eintr : Bool
  connfd : Int
  recvOf : Nat → Recv

/-- One iteration of `for (;;)` with `keepRunning` set: a negative count from
`select` starts the next iteration without any effect when `errno` is `EINTR`
and ends in `die("select")` otherwise. -/
def cycle (s : Server) (e : Env) : Res (Server × List Event) :=
  if e.nready < 0 then (if e.eintr then .ok (s, []) else .fault .died)
  else if s.listen_fd ∈ e.rset then
    match acceptStep s e.connfd with
    | .fault f => .fault f
    | .ok r =>
      if e.nready - 1 ≤ 0 then .ok r
      else
        match scanClients e.rset e.recvOf (r.1.max_i + 1).toNat 0 r.1 (e.nready - 1) with
        | .fault f => .fault f
        | .ok (s2, ev2) => .ok (s2, r.2 ++ ev2)
  else scanClients e.rset e.recvOf (s.max_i + 1).toNat 0 s e.nready

/-! ## The registry, for the statements -/

/-- A handle is registered: it is stored in a slot of the clients table. -/
def Occupied (s : Server) (fd : Int) : Prop := 0 ≤ fd ∧ fd ∈ s.clients

/-- The invariant of the registry: the watch-set is the listening handle and
the registered handles, no handle is in two slots, the occupied slots are at
most `max_i`, which is an index of the table or -1; the listening handle is a
descriptor and is not registered; the watched handles are below `FD_SETSIZE`. -/
structure Inv (s : Server) : Prop where
  watch : ∀ fd, fd ∈ s.allset ↔ fd = s.listen_fd ∨ Occupied s fd
  inj : ∀ (i j : Nat) (fd : Int),
    s.clients[i]? = some fd → s.clients[j]? = some fd → 0 ≤ fd → i = j
  below : ∀ (i : Nat) (fd : Int), s.clients[i]? = some fd → 0 ≤ fd → (i : Int) ≤ s.max_i
  bound : s.max_i < (s.clients.length : Int)
  lpos : 0 ≤ s.listen_fd
  listener : s.listen_fd ∉ s.clients
  inRange : ∀ fd ∈ s.allset, fd < (s.FD_SETSIZE : Int)

/-- The two steps of the event loop that change the registry, when they run
without fault: the block after `accept`, where the handle returned is negative
or not currently open, and the service of an occupied slot. -/
inductive Step : Server → Server → Prop where
  | accept (s : Server) (connfd : Int) (s1 : Server) (ev : List Event)
    (h : connfd < 0 ∨ connfd ∉ s.allset) (hs : acceptStep s connfd = .ok (s1, ev)) :
    Step s s1
  | service (s : Server) (i : Nat) (fd : Int) (r : Recv) (s1 : Server) (ev : List Event)
    (hi : s.clients[i]? = some fd) (hfd : 0 ≤ fd) (h : serviceSlot s i fd r = .ok (s1, ev)) :
    Step s s1

/-- The states the event loop reaches from its initial state without fault. -/
inductive Reachable : Server → Prop where
  | init (listen_fd : Int) (fdSetSize : Nat) (s : Server)
    (h : Server.init listen_fd fdSetSize = .ok s) : Reachable s
  | step (s s1 : Server) (hs : Reachable s) (h : Step s s1) : Reachable s1

/-- Whether slot `i` of the table holds a handle that is in the ready set. -/
def isReady (clients : List Int) (rset : Finset Int) (i : Nat) : Bool :=
  match clients[i]? with
  | some fd => decide (0 ≤ fd) && decide (fd ∈ rset)
  | none => false

/-- The slots of the registered connections whose handle is in the ready set,
in ascending order. -/
def readySlots (s : Server) (rset : Finset Int) : List Nat :=
  (List.range s.clients.length).filter (isReady s.clients rset)

/-- The slots on which `recv` was called, in the order of the calls. -/
def recvSlots (ev : List Event) : List Nat :=
  ev.filterMap (fun e => match e with
    | Event.recv i _ => some i
    | _ => none)

/-! ## Scenarios, for the instances of the theorems -/

/-- The state after the handle `connfd` is stored in slot `k` and added to the
watch-set. -/
def register (s : Server) (k : Nat) (connfd : Int) : Server :=
  { s with
    clients := s.clients.set k connfd
    allset := insert connfd s.allset
    maxfd := if s.maxfd < connfd then connfd else s.maxfd
    max_i := if s.max_i < (k : Int) then (k : Int) else s.max_i }

/-- A server with an `FD_SETSIZE` of 8 that listens on handle 3 and has
accepted one connection, with handle 4. -/
def demoServer : Server := register (Server.base 3 8) 0 4

/-- A cycle in which only handle 4 is ready and its request is `ADD 2 3`. -/
def demoEnv : Env :=
  { rset := {4}
    nready := 1
    eintr := false
    connfd := -1
    recvOf := fun _ => { n := 8, data := bytes "ADD 2 3\n" } }

/-- The server of `demoServer` after a second connection, with handle 5. -/
def pairServer : Server := register demoServer 1 5

/-- A cycle in which the handles 4 and 5 are ready; the first sends a line of
one space, the second the request `ADD 2 3`. -/
def pairEnv : Env :=
  { rset := {4, 5}
    nready := 2
    eintr := false
    connfd := -1
    recvOf := fun i =>
      if i = 0 then { n := 2, data := bytes " \n" } else { n := 8, data := bytes "ADD 2 3\n" } }

/-- A server that listens on handle 3 and has accepted `k` connections, which
got the handles 4, 5, ... in the slots 0, 1, ..., as `accept` hands out the
lowest handle that is free when 0, 1, 2 are the standard streams. -/
def crowd (fdSetSize : Nat) : Nat → Server
  | 0 => Server.base 3 fdSetSize
  | k + 1 => register (crowd fdSetSize k) k ((k : Int) + 4)

/-- A cycle in which the listening socket alone is ready and `accept` returns
the handle 1024. -/
def overflowEnv : Env :=
  { rset := {3}
    nready := 1
    eintr := false
    connfd := 1024
    recvOf := fun _ => { n := 0, data := [] } }

set_option maxRecDepth 100000

/-! ## Facts about `strtok` -/

theorem strtok_nil (delim : List Nat) : strtok [] delim = none := rfl

theorem strtok_cons_delim (d : Nat) (s delim : List Nat) (h : d ∈ delim) :
    strtok (d :: s) delim =
      (strtok s delim).map (fun t => { t with skipped := d :: t.skipped }) := by
  have h1 : delim.contains d = true := by simpa using h
  unfold strtok
  simp only [List.dropWhile_cons, List.takeWhile_cons, h1, if_true]
  split_ifs <;> simp

theorem strtok_cons_token (c : Nat) (s delim : List Nat) (h : c ∉ delim) :
    strtok (c :: s) delim = some
      { skipped := []
        token := c :: s.takeWhile (fun x => !delim.contains x)
        rest := (s.dropWhile (fun x => !delim.contains x)).tail } := by
  have h1 : delim.contains c = false := by simpa using h
  unfold strtok
  simp [List.dropWhile_cons, List.takeWhile_cons, h1, h]

/-! ## Tokens -/

/-- The pieces between separators: the first one, then those of what follows the separator. -/
theorem splitOn_eq (s : List Nat) :
    s.splitOn 32 = s.takeWhile (fun c => c != 32) ::
      (match s.dropWhile (fun c => c != 32) with
        | [] => []
        | _ :: r => r.splitOn 32) := by
  induction s with
  | nil => simp [List.splitOn]
  | cons c cs ih =>
    unfold List.splitOn at ih ⊢
    rw [List.splitOnP_cons]
    by_cases h : c = 32
    · subst h
      simp
    · have h1 : (c == 32) = false := by simpa using h
      have h2 : (c != 32) = true := by simpa using h
      rw [ih]
      simp [h1, h2, List.takeWhile_cons, List.dropWhile_cons]

theorem spaceTokens_nil : spaceTokens [] = [] := by
  simp [spaceTokens, List.splitOn]

theorem spaceTokens_cons_space (s : List Nat) : spaceTokens (32 :: s) = spaceTokens s := by
  unfold spaceTokens List.splitOn
  rw [List.splitOnP_cons]
  simp

theorem spaceTokens_cons_token (c : Nat) (s : List Nat) (h : c ≠ 32) :
    spaceTokens (c :: s) = (c :: s.takeWhile (fun x => x != 32)) ::
      spaceTokens (s.dropWhile (fun x => x != 32)).tail := by
  have h2 : (c != 32) = true := by simpa using h
  unfold spaceTokens
  rw [splitOn_eq]
  simp only [List.takeWhile_cons, List.dropWhile_cons, h2, if_true]
  cases hd : List.dropWhile (fun x => x != 32) s with
  | nil => simp [List.splitOn]
  | cons x r => simp

/-- Reading tokens with `strtok(..., " ")` walks through `spaceTokens`. -/
theorem strtok_space (s : List Nat) :
    match strtok s (bytes " ") with
    | none => spaceTokens s = []
    | some t => t.token ≠ [] ∧ spaceTokens s = t.token :: spaceTokens t.rest := by
  have hb : bytes " " = [32] := rfl
  rw [hb]
  induction s with
  | nil => simp [strtok, spaceTokens_nil]
  | cons c cs ih =>
    by_cases h : c = 32
    · subst h
      rw [strtok_cons_delim 32 cs [32] (by simp), spaceTokens_cons_space]
      cases hs : strtok cs [32] with
      | none => rw [hs] at ih; simpa using ih
      | some t => rw [hs] at ih; simpa using ih
    · rw [strtok_cons_token c cs [32] (by simpa using h), spaceTokens_cons_token c cs h]
      have hf : (fun x : Nat => x != 32) = (fun x => !decide (x = 32)) := by
        funext x
        by_cases hx : x = 32 <;> simp [hx]
      simp [hf]

/-! ## `parser` on the tokens of the line -/

theorem takeWhile_dropWhile_eq_nil (p : Nat → Bool) (s : List Nat) :
    (s.dropWhile p).takeWhile (fun c => !p c) = [] ↔ s.dropWhile p = [] := by
  induction s with
  | nil => simp
  | cons c cs ih =>
    by_cases h : p c = true
    · simpa [List.dropWhile_cons, h] using ih
    · simp [List.dropWhile_cons, List.takeWhile_cons, h]

/-- The first `strtok(buf, "\n")` of `parser`. -/
theorem strtok_newline (buf : List Nat) :
    strtok (cstr buf) (bytes "\n") =
      if firstLine buf = [] then none
      else some
        { skipped := leadingNewlines buf
          token := firstLine buf
          rest :=
            (((cstr buf).dropWhile (fun c => c == 10)).dropWhile (fun c => c != 10)).tail } := by
  have hb : bytes "\n" = [10] := rfl
  have hf : (fun c : Nat => [10].contains c) = (fun c => c == 10) := by
    funext x
    by_cases hx : x = 10 <;> simp [hx]
  have hg : (fun c : Nat => !([10].contains c)) = (fun c => c != 10) := by
    funext x
    by_cases hx : x = 10 <;> simp [hx]
  have hnil := takeWhile_dropWhile_eq_nil (fun c => c == 10) (cstr buf)
  have hg2 : (fun c : Nat => !(c == 10)) = (fun c => c != 10) := by
    funext x
    rfl
  rw [hg2] at hnil
  unfold strtok firstLine leadingNewlines
  rw [hb, hf, hg]
  by_cases h : List.dropWhile (fun c => c == 10) (cstr buf) = []
  · rw [if_pos h, if_pos (hnil.2 h)]
  · rw [if_neg h, if_neg (fun h2 => h (hnil.1 h2))]

theorem strncmpEq_quit (t : List Nat) (n : Nat) (hn : 5 ≤ n) :
    strncmpEq t (bytes "QUIT") n = true ↔ t = bytes "QUIT" := by
  have hq : bytes "QUIT" = [81, 85, 73, 84] := rfl
  rw [hq]
  unfold strncmpEq
  obtain ⟨k, rfl⟩ : ∃ k, n = k + 5 := ⟨n - 5, by omega⟩
  constructor
  · intro h
    have h1 : List.take (k + 5) t = [81, 85, 73, 84] := by simpa using h
    match t, h1 with
    | [a, b, c, d], h1 => simpa using h1
    | a :: b :: c :: d :: e :: r, h1 => simp at h1
    | [], h1 => simp at h1
    | [a], h1 => simp at h1
    | [a, b], h1 => simp at h1
    | [a, b, c], h1 => simp at h1
  · rintro rfl
    simp

theorem findOpcao_eq (t : List Nat) :
    findOpcao t num_opcoes 0 =
      if t = bytes "QUIT" then 0
      else match opCode t with
        | some i => i.toNat
        | none => num_opcoes := by
  have h0 : bytes "QUIT" = [81, 85, 73, 84] := rfl
  have h1 : bytes "ADD" = [65, 68, 68] := rfl
  have h2 : bytes "SUB" = [83, 85, 66] := rfl
  have h3 : bytes "MUL" = [77, 85, 76] := rfl
  have h4 : bytes "DIV" = [68, 73, 86] := rfl
  unfold opCode num_opcoes findOpcao findOpcao findOpcao findOpcao findOpcao findOpcao opcoes_server
  rw [h0, h1, h2, h3, h4]
  simp only [List.getElem?_cons_zero, List.getElem?_cons_succ, Option.some.injEq]
  by_cases c0 : t = [81, 85, 73, 84]
  · simp [c0]
  · by_cases c1 : t = [65, 68, 68]
    · simp [c1]
    · by_cases c2 : t = [83, 85, 66]
      · simp [c2]
      · by_cases c3 : t = [77, 85, 76]
        · simp [c3]
        · by_cases c4 : t = [68, 73, 86]
          · simp [c4]
          · simp [c0, c1, c2, c3, c4, eq_comm]

theorem opCode_range (t : List Nat) (i : Int) (h : opCode t = some i) :
    i = 1 ∨ i = 2 ∨ i = 3 ∨ i = 4 := by
  unfold opCode at h
  split_ifs at h <;> simp at h <;> omega

theorem digitsOnly_head (t : List Nat) (ht : t ≠ []) (h : digitsOnly t = true) :
    isdigit (t.headD 0) = true := by
  cases t with
  | nil => exact absurd rfl ht
  | cons c cs =>
    unfold digitsOnly at h
    by_cases hc : isdigit c = true
    · simpa using hc
    · simp [hc] at h

/-- Function `parser` decides on the first line of the text as `parseTokens`
does on its space-separated tokens, after the two tests of the whole line. -/
theorem parser_eq (buf : List Nat) (n : Nat) (a b : Option F32) (hn : 5 ≤ n) :
    parser buf n a b =
      if firstLine buf = [] then .ok (-1, a, b)
      else if firstLine buf = bytes "QUIT" then .ok (0, a, b)
      else parseTokens (spaceTokens (leadingNewlines buf ++ firstLine buf)) a b := by
  unfold parser
  rw [strtok_newline]
  by_cases h0 : firstLine buf = []
  · simp [h0]
  rw [if_neg h0, if_neg h0]
  simp only []
  by_cases hq : firstLine buf = bytes "QUIT"
  · rw [if_pos ((strncmpEq_quit _ n hn).2 hq), if_pos hq]
  rw [if_neg (fun h => hq ((strncmpEq_quit _ n hn).1 h)), if_neg hq]
  have k1 := strtok_space (leadingNewlines buf ++ firstLine buf)
  cases e1 : strtok (leadingNewlines buf ++ firstLine buf) (bytes " ") with
  | none =>
    rw [e1] at k1
    simp only [] at k1
    rw [k1]
    rfl
  | some t1 =>
    rw [e1] at k1
    obtain ⟨-, k1⟩ := k1
    rw [k1]
    simp only []
    rw [findOpcao_eq]
    unfold parseTokens
    by_cases hq1 : t1.token = bytes "QUIT"
    · simp [hq1, num_opcoes]
    simp only [hq1, ↓reduceIte]
    cases ho : opCode t1.token with
    | none => simp
    | some i =>
      have hi := opCode_range _ _ ho
      have hi5 : ¬ i.toNat = num_opcoes := by unfold num_opcoes; omega
      have hi0 : ¬ i.toNat = 0 := by omega
      have hcast : ((i.toNat : Nat) : Int) = i := by omega
      simp only [if_neg hi5, if_neg hi0, hcast]
      have k2 := strtok_space t1.rest
      cases e2 : strtok t1.rest (bytes " ") with
      | none =>
        rw [e2] at k2
        simp only [] at k2
        rw [k2]
      | some t2 =>
        rw [e2] at k2
        obtain ⟨-, k2⟩ := k2
        rw [k2]
        simp only []
        have k3 := strtok_space t2.rest
        by_cases hd2 : digitsOnly t2.token = true
        · cases e3 : strtok t2.rest (bytes " ") with
          | none =>
            rw [e3] at k3
            simp only [] at k3
            rw [k3]
            simp [hd2]
          | some t3 =>
            rw [e3] at k3
            obtain ⟨hne3, k3⟩ := k3
            rw [k3]
            simp only []
            have k4 := strtok_space t3.rest
            by_cases hd3 : digitsOnly t3.token = true
            · have hh : isdigit (t3.token.head?.getD 0) = true := by
                simpa using digitsOnly_head _ hne3 hd3
              cases e4 : strtok t3.rest (bytes " ") with
              | none =>
                rw [e4] at k4
                simp only [] at k4
                rw [k4]
                simp [hd2, hd3, hh]
              | some t4 =>
                rw [e4] at k4
                obtain ⟨-, k4⟩ := k4
                rw [k4]
                simp [hd2, hd3, hh]
            · by_cases hh : isdigit (t3.token.headD 0) = true
              · simp [hd2, hd3, hh]
              · simp [hd2, hd3, hh]
        · cases hs : spaceTokens t2.rest <;> simp [hd2]

/-! ## Requests in the form of the grammar -/

theorem digitsOnly_iff (t : List Nat) : digitsOnly t = true ↔ ∀ c ∈ t, isdigit c = true := by
  induction t with
  | nil => simp [digitsOnly]
  | cons c cs ih =>
    unfold digitsOnly
    by_cases hc : isdigit c = true
    · simp [hc, ih]
    · simp [hc]

theorem isdigit_iff (c : Nat) : isdigit c = true ↔ 48 ≤ c ∧ c ≤ 57 := by
  simp [isdigit]

theorem plainToken_of_digits (t : List Nat) (h0 : t ≠ []) (h : digitsOnly t = true) :
    PlainToken t := by
  refine ⟨h0, fun c hc => ?_⟩
  have := (isdigit_iff c).1 ((digitsOnly_iff t).1 h c hc)
  omega

theorem plainToken_of_opCode (t : List Nat) (i : Int) (h : opCode t = some i) :
    PlainToken t ∧ t ≠ bytes "QUIT" := by
  have h1 : bytes "ADD" = [65, 68, 68] := rfl
  have h2 : bytes "SUB" = [83, 85, 66] := rfl
  have h3 : bytes "MUL" = [77, 85, 76] := rfl
  have h4 : bytes "DIV" = [68, 73, 86] := rfl
  have h0 : bytes "QUIT" = [81, 85, 73, 84] := rfl
  unfold opCode at h
  rw [h1, h2, h3, h4] at h
  rw [h0]
  unfold PlainToken
  split_ifs at h with c1 c2 c3 c4
  · subst c1; simp
  · subst c2; simp
  · subst c3; simp
  · subst c4; simp

theorem spaceTokens_single (t : List Nat) (h : PlainToken t) : spaceTokens t = [t] := by
  obtain ⟨h0, h1⟩ := h
  cases t with
  | nil => exact absurd rfl h0
  | cons c cs =>
    have hc : c ≠ 32 := (h1 c (by simp)).2.2
    have hall : ∀ x ∈ cs, (x != 32) = true := by
      intro x hx
      have := (h1 x (by simp [hx])).2.2
      simpa using this
    rw [spaceTokens_cons_token c cs hc, List.takeWhile_eq_self_iff.2 hall,
      List.dropWhile_eq_nil_iff.2 hall]
    simp [spaceTokens_nil]

theorem spaceTokens_append (t s : List Nat) (h : PlainToken t) :
    spaceTokens (t ++ 32 :: s) = t :: spaceTokens s := by
  obtain ⟨h0, h1⟩ := h
  cases t with
  | nil => exact absurd rfl h0
  | cons c cs =>
    have hc : c ≠ 32 := (h1 c (by simp)).2.2
    have hall : ∀ x ∈ cs, (x != 32) = true := by
      intro x hx
      have := (h1 x (by simp [hx])).2.2
      simpa using this
    rw [List.cons_append, spaceTokens_cons_token c _ hc, List.takeWhile_append_of_pos hall,
      List.dropWhile_append_of_pos hall]
    simp

/-- A line made of bytes other than NUL and the line terminator, followed by a
line terminator, is the first line of the text. -/
theorem firstLine_of_line (line rest : List Nat) (h0 : line ≠ [])
    (h : ∀ c ∈ line, c ≠ 0 ∧ c ≠ 10) :
    leadingNewlines (line ++ 10 :: rest) = [] ∧ firstLine (line ++ 10 :: rest) = line := by
  have hz : ∀ c ∈ line, (c != 0) = true := fun c hc => by simpa using (h c hc).1
  have hn : ∀ c ∈ line, (c != 10) = true := fun c hc => by simpa using (h c hc).2
  have hcs : cstr (line ++ 10 :: rest) = line ++ 10 :: cstr rest := by
    unfold cstr
    rw [List.takeWhile_append_of_pos hz]
    simp [List.takeWhile_cons]
  unfold leadingNewlines firstLine
  rw [hcs]
  cases line with
  | nil => exact absurd rfl h0
  | cons c cs =>
    have hc : (c == 10) = false := by simpa using (h c (by simp)).2
    have hcs2 : ∀ x ∈ cs, (x != 10) = true := fun x hx => hn x (by simp [hx])
    have hc2 : (c != 10) = true := hn c (by simp)
    constructor
    · simp [List.takeWhile_cons, hc]
    · rw [List.cons_append, List.dropWhile_cons, hc]
      simp only [Bool.false_eq_true, if_false]
      rw [List.takeWhile_cons, hc2]
      simp only [if_true]
      rw [List.takeWhile_append_of_pos hcs2]
      simp [List.takeWhile_cons]

/-- Function `parser` on a request `<OP> <A> <B>` in the form of the grammar. -/
theorem parser_request (op ta tb rest : List Nat) (n : Nat) (a b : Option F32) (i : Int)
    (hn : 5 ≤ n) (hop : opCode op = some i)
    (ha0 : ta ≠ []) (ha : digitsOnly ta = true) (hb0 : tb ≠ []) (hb : digitsOnly tb = true) :
    parser (op ++ bytes " " ++ ta ++ bytes " " ++ tb ++ bytes "\n" ++ rest) n a b =
      .ok (i, some (atof ta), some (atof tb)) := by
  have hs : bytes " " = [32] := rfl
  have hl : bytes "\n" = [10] := rfl
  obtain ⟨pop, hopq⟩ := plainToken_of_opCode op i hop
  have pa := plainToken_of_digits ta ha0 ha
  have pb := plainToken_of_digits tb hb0 hb
  have hline : op ++ bytes " " ++ ta ++ bytes " " ++ tb ++ bytes "\n" ++ rest =
      (op ++ 32 :: (ta ++ 32 :: tb)) ++ 10 :: rest := by
    rw [hs, hl]
    simp
  have hne : op ++ 32 :: (ta ++ 32 :: tb) ≠ [] := by simp
  have hchars : ∀ c ∈ op ++ 32 :: (ta ++ 32 :: tb), c ≠ 0 ∧ c ≠ 10 := by
    intro c hc
    simp only [List.mem_append, List.mem_cons] at hc
    rcases hc with hc | hc | hc | hc | hc
    · exact ⟨(pop.2 c hc).1, (pop.2 c hc).2.1⟩
    · subst hc; decide
    · exact ⟨(pa.2 c hc).1, (pa.2 c hc).2.1⟩
    · subst hc; decide
    · exact ⟨(pb.2 c hc).1, (pb.2 c hc).2.1⟩
  obtain ⟨hlead, hfirst⟩ := firstLine_of_line _ rest hne hchars
  have hq : op ++ 32 :: (ta ++ 32 :: tb) ≠ bytes "QUIT" := by
    intro hcon
    have hmem : (32 : Nat) ∈ bytes "QUIT" := by
      rw [← hcon]
      simp
    revert hmem
    decide
  rw [parser_eq _ n a b hn, hline, hlead, hfirst, if_neg hne, if_neg hq, List.nil_append,
    spaceTokens_append _ _ pop, spaceTokens_append _ _ pa, spaceTokens_single _ pb]
  unfold parseTokens
  simp [hopq, hop, ha, hb]

/-! ## Rounding -/

theorem le_bitLenAux (fuel n acc : Nat) : acc ≤ bitLenAux fuel n acc := by
  induction fuel generalizing n acc with
  | zero => simp [bitLenAux]
  | succ f ih =>
    unfold bitLenAux
    split_ifs
    · exact le_refl _
    · exact le_trans (Nat.le_succ acc) (ih (n / 2) (acc + 1))

theorem bitLenAux_le_iff (fuel n acc k : Nat) (h : n ≤ fuel) :
    bitLenAux fuel n acc ≤ acc + k ↔ n < 2 ^ k := by
  induction fuel generalizing n acc k with
  | zero =>
    have hn : n = 0 := by omega
    subst hn
    simp [bitLenAux]
  | succ f ih =>
    unfold bitLenAux
    by_cases hn : n = 0
    · subst hn
      simp
    · rw [if_neg hn]
      have hf : n / 2 ≤ f := by omega
      cases k with
      | zero =>
        have := le_bitLenAux f (n / 2) (acc + 1)
        constructor
        · intro h1
          omega
        · intro h1
          simp at h1
          omega
      | succ k =>
        have := ih (n / 2) (acc + 1) k hf
        rw [show acc + (k + 1) = acc + 1 + k by omega, this, pow_succ]
        omega

/-- The number of bits is the least `k` with `n < 2 ^ k`. -/
theorem bitLen_le_iff (n k : Nat) : bitLen n ≤ k ↔ n < 2 ^ k := by
  have := bitLenAux_le_iff n n 0 k (le_refl n)
  simpa [bitLen] using this

theorem lt_two_pow_bitLen (n : Nat) : n < 2 ^ bitLen n :=
  (bitLen_le_iff n (bitLen n)).1 (le_refl _)

theorem two_pow_bitLen_le (n : Nat) (h : 0 < n) : 2 ^ (bitLen n - 1) ≤ n := by
  by_contra hc
  have h1 : bitLen n ≤ bitLen n - 1 := (bitLen_le_iff n _).2 (by omega)
  have h2 : ¬ bitLen n ≤ 0 := by
    rw [bitLen_le_iff]
    simp
    omega
  omega

theorem roundHalfEven_mul (q d : Nat) (hd : 0 < d) : roundHalfEven (q * d) d = q := by
  unfold roundHalfEven
  have h1 : q * d % d = 0 := Nat.mul_mod_left q d
  simp [h1, hd, Nat.mul_div_cancel q hd]

theorem div_le_roundHalfEven (n d : Nat) : n / d ≤ roundHalfEven n d := by
  unfold roundHalfEven
  simp only []
  split_ifs <;> omega

/-- Rounding is to a nearest integer: the error is at most one half. -/
theorem roundHalfEven_near (n d : Nat) (hd : 0 < d) :
    2 * (roundHalfEven n d * d) ≤ 2 * n + d ∧ 2 * n ≤ 2 * (roundHalfEven n d * d) + d := by
  unfold roundHalfEven
  have h : n / d * d + n % d = n := by
    rw [Nat.mul_comm]
    exact Nat.div_add_mod n d
  have hm := Nat.mod_lt n hd
  have e1 : (n / d + 1) * d = n / d * d + d := by ring
  simp only []
  split_ifs with h1 h2
  · generalize n / d * d = p at h
    omega
  · rw [e1]
    generalize n / d * d = p at h
    omega
  · rcases Nat.mod_two_eq_zero_or_one (n / d) with h4 | h4
    · rw [h4, Nat.add_zero]
      generalize n / d * d = p at h
      omega
    · rw [h4, e1]
      generalize n / d * d = p at h
      omega

/-- A value that the format represents is left as it is. -/
theorem roundUnits_exact (fmt : FloatFormat) (n d m j : Nat) (hd : 0 < d)
    (hm : m < 2 ^ fmt.prec) (h : n * 2 ^ fmt.emin = m * 2 ^ j * d) :
    roundUnits fmt n d = m * 2 ^ j := by
  unfold roundUnits
  simp only []
  rw [h, Nat.mul_div_cancel _ hd]
  have hlen : bitLen (m * 2 ^ j) ≤ fmt.prec + j := by
    rw [bitLen_le_iff, pow_add]
    exact Nat.mul_lt_mul_of_lt_of_le hm (le_refl _) (by positivity)
  obtain ⟨t, ht⟩ : ∃ t, j = (bitLen (m * 2 ^ j) - fmt.prec) + t :=
    ⟨j - (bitLen (m * 2 ^ j) - fmt.prec), by omega⟩
  generalize bitLen (m * 2 ^ j) - fmt.prec = s at ht
  subst ht
  have e : m * 2 ^ (s + t) * d = (m * 2 ^ t) * (d * 2 ^ s) := by
    rw [pow_add]; ring
  rw [e, roundHalfEven_mul _ _ (by positivity), pow_add]
  ring

/-- Rounding does not go below a power of two that the value reaches. -/
theorem two_pow_le_roundUnits (fmt : FloatFormat) (n d k : Nat) (hd : 0 < d)
    (hp : 1 ≤ fmt.prec) (h : 2 ^ k * d ≤ n * 2 ^ fmt.emin) :
    2 ^ k ≤ roundUnits fmt n d := by
  unfold roundUnits
  simp only []
  have hy : 2 ^ k ≤ n * 2 ^ fmt.emin / d := (Nat.le_div_iff_mul_le hd).2 h
  generalize n * 2 ^ fmt.emin = N at hy ⊢
  have hq := div_le_roundHalfEven N (d * 2 ^ (bitLen (N / d) - fmt.prec))
  rw [← Nat.div_div_eq_div_mul] at hq
  have hpos : 0 < N / d := lt_of_lt_of_le (by positivity) hy
  have hlow := two_pow_bitLen_le (N / d) hpos
  generalize N / d = y at hq hy hlow
  generalize hs : bitLen y - fmt.prec = s at hq
  refine le_trans ?_ (Nat.mul_le_mul_right _ hq)
  by_cases hsk : s ≤ k
  · obtain ⟨t, rfl⟩ : ∃ t, k = s + t := ⟨k - s, by omega⟩
    have : 2 ^ t ≤ y / 2 ^ s := by
      rw [Nat.le_div_iff_mul_le (by positivity), ← pow_add, Nat.add_comm]
      exact hy
    calc 2 ^ (s + t) = 2 ^ t * 2 ^ s := by rw [pow_add]; ring
      _ ≤ y / 2 ^ s * 2 ^ s := Nat.mul_le_mul_right _ this
  · have h1 : s ≤ bitLen y - 1 := by omega
    have h2 : 2 ^ s ≤ y := le_trans (Nat.pow_le_pow_right (by norm_num) h1) hlow
    have h3 : 1 ≤ y / 2 ^ s := (Nat.le_div_iff_mul_le (by positivity)).2 (by simpa using h2)
    calc 2 ^ k ≤ 2 ^ s := Nat.pow_le_pow_right (by norm_num) (by omega)
      _ = 1 * 2 ^ s := by ring
      _ ≤ y / 2 ^ s * 2 ^ s := Nat.mul_le_mul_right _ h3

/-! ## Operands and results that `float` represents exactly -/

theorem round_exact (s : Bool) (n d m : Nat) (hd : 0 < d) (hm : m < 2 ^ 24) (h : n = m * d) :
    F32.round s n d = F32.fin s (m * F32.unit) := by
  have hr : roundUnits binary32 n d = m * 2 ^ 149 := by
    apply roundUnits_exact binary32 n d m 149 hd hm
    rw [h]
    show m * d * 2 ^ 149 = m * 2 ^ 149 * d
    ring
  have ho : overflows binary32 (m * 2 ^ 149) = false := by
    unfold overflows
    have : m * 2 ^ 149 < 2 ^ (128 + 149) := by
      rw [show 128 + 149 = 24 + 104 + 149 by rfl, pow_add, pow_add]
      have h1 : m * 2 ^ 149 < 2 ^ 24 * 2 ^ 149 :=
        Nat.mul_lt_mul_of_lt_of_le hm (le_refl _) (by positivity)
      have h2 : 2 ^ 24 * 2 ^ 149 ≤ 2 ^ 24 * 2 ^ 104 * 2 ^ 149 := by
        apply Nat.mul_le_mul_right
        exact Nat.le_mul_of_pos_right _ (by positivity)
      omega
    simpa [binary32] using this
  unfold F32.round
  simp only [hr, ho]
  rfl

theorem atof_small (t : List Nat) (h : decVal t < 2 ^ 24) : atof t = F32.ofNat (decVal t) := by
  have hr : roundUnits binary64 (decVal t) 1 = decVal t * 2 ^ 1074 := by
    apply roundUnits_exact binary64 (decVal t) 1 (decVal t) 1074 (by norm_num)
    · show decVal t < 2 ^ 53
      exact lt_trans h (Nat.pow_lt_pow_right (by norm_num) (by norm_num))
    · show decVal t * 2 ^ 1074 = decVal t * 2 ^ 1074 * 1
      ring
  have ho : overflows binary64 (decVal t * 2 ^ 1074) = false := by
    unfold overflows
    have : decVal t * 2 ^ 1074 < 2 ^ (1024 + 1074) := by
      rw [pow_add]
      apply Nat.mul_lt_mul_of_lt_of_le _ (le_refl _) (by positivity)
      exact lt_trans h (Nat.pow_lt_pow_right (by norm_num) (by norm_num))
    simpa [binary64] using this
  unfold atof
  simp only [hr, ho]
  exact round_exact false _ _ _ (by positivity) h rfl

theorem add_ofNat (x y : Nat) (h : x + y < 2 ^ 24) :
    F32.add (F32.ofNat x) (F32.ofNat y) = F32.ofNat (x + y) := by
  unfold F32.ofNat F32.add
  simp only [if_true]
  exact round_exact false _ _ _ (by unfold F32.unit; positivity) h (by ring)

theorem sub_ofNat_le (x y : Nat) (hx : x < 2 ^ 24) (h : y ≤ x) :
    F32.sub (F32.ofNat x) (F32.ofNat y) = F32.ofNat (x - y) := by
  have hu : 0 < F32.unit := by unfold F32.unit; positivity
  unfold F32.sub F32.ofNat F32.neg F32.add
  simp only [Bool.not_false, Bool.false_eq_true, if_false]
  rcases Nat.lt_or_ge y x with h1 | h1
  · rw [if_pos (Nat.mul_lt_mul_of_pos_right h1 hu)]
    exact round_exact false _ _ _ hu (by omega) (by rw [Nat.sub_mul])
  · have : x = y := by omega
    subst this
    simp

theorem sub_ofNat_lt (x y : Nat) (hy : y < 2 ^ 24) (h : x < y) :
    F32.sub (F32.ofNat x) (F32.ofNat y) = F32.fin true ((y - x) * F32.unit) := by
  have hu : 0 < F32.unit := by unfold F32.unit; positivity
  unfold F32.sub F32.ofNat F32.neg F32.add
  simp only [Bool.not_false, Bool.false_eq_true, if_false]
  have h1 := Nat.mul_lt_mul_of_pos_right h hu
  rw [if_neg (by omega), if_pos h1]
  exact round_exact true _ _ _ hu (by omega) (by rw [Nat.sub_mul])

theorem mul_ofNat (x y : Nat) (h : x * y < 2 ^ 24) :
    F32.mul (F32.ofNat x) (F32.ofNat y) = F32.ofNat (x * y) := by
  have hu : 0 < F32.unit := by unfold F32.unit; positivity
  unfold F32.ofNat F32.mul
  exact round_exact false _ _ _ (by positivity) h (by ring)

theorem div_ofNat (x y : Nat) (hy : y ≠ 0) (hd : y ∣ x) (h : x / y < 2 ^ 24) :
    F32.div (F32.ofNat x) (F32.ofNat y) = F32.ofNat (x / y) := by
  have hu : 0 < F32.unit := by unfold F32.unit; positivity
  have hy0 : 0 < y := Nat.pos_of_ne_zero hy
  unfold F32.ofNat F32.div
  simp only []
  rw [if_neg (by positivity)]
  apply round_exact false _ _ _ (by positivity) h
  obtain ⟨c, rfl⟩ := hd
  rw [Nat.mul_div_cancel_left c hy0]
  ring

theorem fmt6_int (s : Bool) (m : Nat) :
    fmt6 (F32.fin s (m * F32.unit)) =
      (if s then bytes "-" else []) ++ decimal m ++ bytes ".000000" := by
  have hu : 0 < F32.unit := by unfold F32.unit; positivity
  unfold fmt6
  simp only []
  rw [show m * F32.unit * 10 ^ 6 = (m * 10 ^ 6) * F32.unit by ring, roundHalfEven_mul _ _ hu,
    Nat.mul_div_cancel _ (by norm_num), Nat.mul_mod_left, List.append_assoc _ (bytes ".")]
  rfl

/-! ## Zero and non-zero divisors -/

theorem roundUnits_zero (fmt : FloatFormat) (d : Nat) (hd : 0 < d) : roundUnits fmt 0 d = 0 := by
  unfold roundUnits
  simp [bitLen, bitLenAux, roundHalfEven, hd]

theorem atof_of_decVal_zero (t : List Nat) (h : decVal t = 0) : atof t = F32.fin false 0 := by
  unfold atof F32.round
  simp only [h, roundUnits_zero binary64 1 (by norm_num)]
  have h1 : overflows binary64 0 = false := by simp [overflows]
  have h2 : overflows binary32 0 = false := by simp [overflows]
  rw [h1]
  simp only [Bool.false_eq_true, if_false]
  rw [roundUnits_zero binary32 _ (by positivity), h2]
  rfl

theorem atof_ne_zero (t : List Nat) (h : decVal t ≠ 0) : (atof t).isZero = false := by
  have h1 : 2 ^ binary64.emin ≤ roundUnits binary64 (decVal t) 1 := by
    apply two_pow_le_roundUnits binary64 _ 1 _ (by norm_num) (by decide)
    have : 1 ≤ decVal t := Nat.pos_of_ne_zero h
    rw [Nat.mul_one]
    exact Nat.le_mul_of_pos_left _ this
  unfold atof F32.round
  simp only []
  generalize roundUnits binary64 (decVal t) 1 = d at h1
  generalize binary64.emin = e at h1
  split_ifs with c1 c2
  · rfl
  · rfl
  · have h2 : 2 ^ binary32.emin ≤ roundUnits binary32 d (2 ^ e) := by
      apply two_pow_le_roundUnits binary32 _ _ _ (by positivity) (by decide)
      rw [Nat.mul_comm]
      exact Nat.mul_le_mul_right _ h1
    have h3 : 0 < roundUnits binary32 d (2 ^ e) := lt_of_lt_of_le (by positivity) h2
    unfold F32.isZero
    simp only []
    simpa using Nat.pos_iff_ne_zero.1 h3

theorem foldl_decVal_eq_zero (t : List Nat) (acc : Nat) (h : digitsOnly t = true) :
    t.foldl (fun acc c => 10 * acc + (c - 48)) acc = 0 ↔ acc = 0 ∧ ∀ c ∈ t, c = 48 := by
  induction t generalizing acc with
  | nil => simp
  | cons c cs ih =>
    have hc := (isdigit_iff c).1 ((digitsOnly_iff _).1 h c (by simp))
    have hcs : digitsOnly cs = true := (digitsOnly_iff _).2 fun x hx =>
      (digitsOnly_iff _).1 h x (by simp [hx])
    rw [List.foldl_cons, ih _ hcs]
    simp only [List.mem_cons, forall_eq_or_imp]
    constructor
    · rintro ⟨h1, h2⟩
      exact ⟨by omega, by omega, h2⟩
    · rintro ⟨h1, h2, h3⟩
      exact ⟨by omega, h3⟩

/-- A digit string has the value zero exactly when all its digits are `0`. -/
theorem decVal_eq_zero_iff (t : List Nat) (h : digitsOnly t = true) :
    decVal t = 0 ↔ ∀ c ∈ t, c = 48 := by
  unfold decVal
  rw [foldl_decVal_eq_zero t 0 h]
  simp

/-! ## Length of the rendering -/

theorem length_decimalAux (fuel n k : Nat) (acc : List Nat) (hk : 1 ≤ k) (h : n < 10 ^ k) :
    (decimalAux fuel n acc).length ≤ acc.length + k := by
  induction fuel generalizing n k acc with
  | zero => simp [decimalAux]
  | succ f ih =>
    unfold decimalAux
    split_ifs with h0
    · simp
      omega
    · have h10 : 10 ≤ n := by
        by_contra hc
        exact h0 (Nat.div_eq_of_lt (by omega))
      obtain ⟨j, rfl⟩ : ∃ j, k = j + 1 := ⟨k - 1, by omega⟩
      have hj : 1 ≤ j := by
        by_contra hc
        have : j = 0 := by omega
        subst this
        simp at h
        omega
      have hlt : n / 10 < 10 ^ j := by
        rw [Nat.div_lt_iff_lt_mul (by norm_num)]
        rw [pow_succ] at h
        exact h
      have := ih (n / 10) j ((48 + n % 10) :: acc) hj hlt
      simp only [List.length_cons] at this
      omega

theorem length_decimal (n k : Nat) (hk : 1 ≤ k) (h : n < 10 ^ k) : (decimal n).length ≤ k := by
  have := length_decimalAux (n + 1) n k [] hk h
  simpa [decimal] using this

theorem length_intText (z : Int) (h : |z| < 2 ^ 24) : (intText z).length ≤ 16 := by
  have h1 : z.natAbs < 10 ^ 8 := by
    have : (z.natAbs : Int) = |z| := Int.natCast_natAbs z
    omega
  have h2 := length_decimal z.natAbs 8 (by norm_num) h1
  unfold intText
  have h3 : (bytes ".000000").length = 7 := rfl
  have h4 : (bytes "-").length = 1 := rfl
  simp only [List.length_append, h3]
  split_ifs
  · rw [h4]; omega
  · simp; omega

/-! ## `calculator` and the response on a request in the form of the grammar -/

theorem calculator_request (op ta tb rest : List Nat) (i : Int) (x0 : F32)
    (hop : opCode op = some i)
    (ha0 : ta ≠ []) (ha : digitsOnly ta = true) (hb0 : tb ≠ []) (hb : digitsOnly tb = true) :
    calculator (op ++ bytes " " ++ ta ++ bytes " " ++ tb ++ bytes "\n" ++ rest) BUF_SIZE x0 =
      if i = 4 ∧ (atof tb).isZero = true then .ok (-2, x0)
      else .ok (i, arith i (atof ta) (atof tb)) := by
  unfold calculator
  rw [parser_request op ta tb rest BUF_SIZE none none i (by decide) hop ha0 ha hb0 hb]
  simp only []
  rcases opCode_range op i hop with h | h | h | h <;> subst h
  · simp [binop, arith]
  · simp [binop, arith]
  · simp [binop, arith]
  · by_cases hz : (atof tb).isZero = true
    · simp [hz]
    · simp [hz, binop, arith]

theorem respond_of_calculator (buf : List Nat) (i : Int) (x : F32) (hi : 0 < i)
    (h : calculator buf BUF_SIZE (F32.fin false 0) = .ok (i, x)) :
    respond buf =
      if 30 < (fmt6 x).length + 1 then .fault .bufferOverflow
      else .ok (.send (bytes "OK " ++ fmt6 x ++ bytes "\n")) := by
  unfold respond
  rw [h]
  simp only []
  rw [if_neg (by omega), if_neg (by omega), if_neg (by omega)]

theorem arith_exact (i : Int) (x y : Nat) (z : Int) (hi : i = 1 ∨ i = 2 ∨ i = 3 ∨ i = 4)
    (hx : x < 2 ^ 24) (hy : y < 2 ^ 24) (he : exactInt i x y = some z) (hz : |z| < 2 ^ 24) :
    fmt6 (arith i (F32.ofNat x) (F32.ofNat y)) = intText z := by
  unfold exactInt at he
  unfold arith intText
  rcases hi with h | h | h | h <;> subst h
  · simp only [if_true, Option.some.injEq] at he
    subst he
    have hs : x + y < 2 ^ 24 := by
      have : |(x : Int) + y| = x + y := abs_of_nonneg (by positivity)
      omega
    rw [if_pos rfl, add_ofNat x y hs, F32.ofNat, fmt6_int]
    have : ¬ ((x : Int) + y < 0) := by omega
    have e : ((x : Int) + y).natAbs = x + y := by omega
    simp [this, e]
  · simp only [show ¬ ((2 : Int) = 1) by decide, if_false, if_true, Option.some.injEq] at he
    subst he
    rw [if_neg (by decide), if_pos rfl]
    rcases Nat.lt_or_ge x y with hlt | hge
    · rw [sub_ofNat_lt x y hy hlt, fmt6_int]
      have : (x : Int) - y < 0 := by omega
      have e : ((x : Int) - y).natAbs = y - x := by omega
      simp [this, e]
    · rw [sub_ofNat_le x y hx hge, F32.ofNat, fmt6_int]
      have : ¬ ((x : Int) - y < 0) := by omega
      have e : ((x : Int) - y).natAbs = x - y := by omega
      simp [this, e]
  · simp only [show ¬ ((3 : Int) = 1) by decide, show ¬ ((3 : Int) = 2) by decide, if_false,
      if_true, Option.some.injEq] at he
    subst he
    have hs : x * y < 2 ^ 24 := by
      have : |(x : Int) * y| = ((x * y : Nat) : Int) := by
        rw [abs_of_nonneg (by positivity)]
        push_cast
        rfl
      omega
    rw [if_neg (by decide), if_neg (by decide), if_pos rfl, mul_ofNat x y hs, F32.ofNat, fmt6_int]
    have : ¬ ((x : Int) * y < 0) := by
      have : (0 : Int) ≤ (x : Int) * y := by positivity
      omega
    have e : ((x : Int) * y).natAbs = x * y := by
      rw [Int.natAbs_mul]
      simp
    simp [this, e]
  · simp only [show ¬ ((4 : Int) = 1) by decide, show ¬ ((4 : Int) = 2) by decide,
      show ¬ ((4 : Int) = 3) by decide, if_false] at he
    split_ifs at he with hdvd
    simp only [Option.some.injEq] at he
    subst he
    have hs : x / y < 2 ^ 24 := by
      have : |((x / y : Nat) : Int)| = ((x / y : Nat) : Int) := abs_of_nonneg (by positivity)
      omega
    rw [if_neg (by decide), if_neg (by decide), if_neg (by decide),
      div_ofNat x y hdvd.1 hdvd.2 hs, F32.ofNat, fmt6_int]
    generalize x / y = q
    have : ¬ ((q : Int) < 0) := by omega
    simp [this]

/-! ## The statuses of `parser` -/

theorem parseTokens_zero_iff (toks : List (List Nat)) (a b : Option F32) :
    (∃ a1 b1, parseTokens toks a b = .ok (0, a1, b1)) ↔ toks.head? = some (bytes "QUIT") := by
  unfold parseTokens
  cases toks with
  | nil => simp
  | cons op args =>
    by_cases hq : op = bytes "QUIT"
    · simp [hq]
    · simp only [hq, if_false, List.head?_cons, Option.some.injEq, iff_false]
      rintro ⟨a1, b1, h⟩
      cases ho : opCode op with
      | none => simp [ho] at h
      | some i =>
        have hi := opCode_range op i ho
        rw [ho] at h
        match args, h with
        | [], h => simp at h
        | [ta], h =>
          simp only [] at h
          split_ifs at h <;> simp at h
        | ta :: tb :: more, h =>
          simp only [] at h
          split_ifs at h <;> simp at h
          omega

theorem parseTokens_invalid (toks : List (List Nat)) (a b : Option F32) (h0 : toks ≠ [])
    (h : ¬ RequestTokens toks) : ∃ a1 b1, parseTokens toks a b = .ok (-1, a1, b1) := by
  unfold RequestTokens at h
  unfold parseTokens
  cases toks with
  | nil => exact absurd rfl h0
  | cons op args =>
    by_cases hq : op = bytes "QUIT"
    · exact absurd (Or.inl (by simp [hq])) h
    · simp only [hq, if_false]
      cases ho : opCode op with
      | none => exact ⟨a, b, rfl⟩
      | some i =>
        match args, h with
        | [], _ => exact ⟨a, b, rfl⟩
        | [ta], _ =>
          simp only []
          split_ifs
          · exact ⟨_, _, rfl⟩
          · exact ⟨_, _, rfl⟩
        | ta :: tb :: more, h =>
          simp only []
          split_ifs with h1 h2 h3
          · exact ⟨_, _, rfl⟩
          · exact ⟨_, _, rfl⟩
          · exfalso
            apply h
            right
            refine ⟨op, ta, tb, by simp [ho], by simpa using h1, by simpa using h2, ?_⟩
            simp [h3]
          · exact ⟨_, _, rfl⟩

theorem respond_of_invalid (buf : List Nat) (a1 b1 : Option F32)
    (h : parser buf BUF_SIZE none none = .ok (-1, a1, b1)) :
    respond buf = .ok (.send errInvalid) := by
  unfold respond calculator
  rw [h]
  rfl

theorem head_spaceTokens_newline (s : List Nat) :
    (spaceTokens (10 :: s)).head? ≠ some (bytes "QUIT") := by
  rw [spaceTokens_cons_token 10 s (by decide)]
  simp only [List.head?_cons, ne_eq, Option.some.injEq]
  intro h
  have hq : bytes "QUIT" = [81, 85, 73, 84] := rfl
  rw [hq] at h
  simp at h

theorem leadingNewlines_cases (buf : List Nat) :
    leadingNewlines buf = [] ∨ ∃ l, leadingNewlines buf = 10 :: l := by
  unfold leadingNewlines
  cases h : List.takeWhile (fun c => c == 10) (cstr buf) with
  | nil => exact Or.inl rfl
  | cons c l =>
    right
    have hc : c ∈ List.takeWhile (fun c => c == 10) (cstr buf) := by simp [h]
    have := List.mem_takeWhile_imp hc
    simp only [beq_iff_eq] at this
    exact ⟨l, by rw [this]⟩

theorem respond_closeConn_iff (buf : List Nat) :
    respond buf = .ok .closeConn ↔
      ∃ a1 b1, parser buf BUF_SIZE none none = .ok (0, a1, b1) := by
  constructor
  · intro h
    unfold respond calculator at h
    cases hp : parser buf BUF_SIZE none none with
    | fault f =>
      rw [hp] at h
      simp at h
    | ok p =>
      obtain ⟨st, a1, b1⟩ := p
      rw [hp] at h
      simp only [] at h
      by_cases h0 : st = 0
      · subst h0
        exact ⟨a1, b1, rfl⟩
      · exfalso
        by_cases h1 : st = 1
        · subst h1
          cases a1 <;> cases b1 <;> simp [binop] at h
          split_ifs at h
          simp at h
        by_cases h2 : st = 2
        · subst h2
          cases a1 <;> cases b1 <;> simp [binop] at h
          split_ifs at h
          simp at h
        by_cases h3 : st = 3
        · subst h3
          cases a1 <;> cases b1 <;> simp [binop] at h
          split_ifs at h
          simp at h
        by_cases h4 : st = 4
        · subst h4
          cases a1 <;> cases b1 <;> simp [binop] at h
          all_goals split_ifs at h
          all_goals simp at h
          split_ifs at h
          simp at h
        · simp only [h0, h1, h2, h3, h4, if_false] at h
          split_ifs at h <;> simp at h
  · rintro ⟨a1, b1, hp⟩
    unfold respond calculator
    rw [hp]
    rfl

theorem parser_zero_iff (buf : List Nat) (a b : Option F32) :
    (∃ a1 b1, parser buf BUF_SIZE a b = .ok (0, a1, b1)) ↔ TerminateLine buf := by
  unfold TerminateLine
  have hp := parser_eq buf BUF_SIZE a b (by decide)
  by_cases h0 : firstLine buf = []
  · rw [hp, if_pos h0, h0]
    have hq : ([] : List Nat) ≠ bytes "QUIT" := by decide
    simp [hq, spaceTokens_nil]
  rw [if_neg h0] at hp
  by_cases hq : firstLine buf = bytes "QUIT"
  · rw [if_pos hq] at hp
    rw [hp]
    simp [hq]
  rw [if_neg hq] at hp
  rw [hp, parseTokens_zero_iff]
  rcases leadingNewlines_cases buf with hl | ⟨l, hl⟩
  · rw [hl]
    simp [hq]
  · rw [hl]
    have := head_spaceTokens_newline (l ++ firstLine buf)
    simp only [List.cons_append]
    simp [this, hq]

/-- C4 (amended): `parser` returns the terminate status 0, upon which the
server closes the connection and sends no response line, exactly when the
first non-empty line of the text is `QUIT`, or the text does not start with a
line terminator and the first space-separated token of its first line is
`QUIT`, whatever follows that token; a line with another first token that is
none of `ADD`, `SUB`, `MUL`, `DIV` gets the invalid status -1. -/
theorem quit_status_iff (buf : List Nat) (a b : Option F32) :
    ((∃ a1 b1, parser buf BUF_SIZE a b = .ok (0, a1, b1)) ↔ TerminateLine buf) ∧
    (respond buf = .ok .closeConn ↔ TerminateLine buf) ∧
    (TerminateLine buf → ∀ (s : Server) (i : Nat) (fd : Int) (r : Recv),
      0 < r.n → r.request = buf →
      serviceSlot s i fd r = .ok (dropClient s i fd, [Event.recv i fd, Event.close fd])) ∧
    (∀ t, firstLine buf ≠ bytes "QUIT" →
      (spaceTokens (leadingNewlines buf ++ firstLine buf)).head? = some t →
      t ≠ bytes "QUIT" → opCode t = none →
      parser buf BUF_SIZE a b = .ok (-1, a, b) ∧ respond buf = .ok (.send errInvalid)) := by
  have hresp : respond buf = .ok .closeConn ↔ TerminateLine buf := by
    rw [respond_closeConn_iff, parser_zero_iff]
  refine ⟨parser_zero_iff buf a b, hresp, ?_, ?_⟩
  · intro hq s i fd r hn hr
    unfold serviceSlot
    rw [if_neg (by omega), hr, hresp.2 hq]
  · intro t hq ht htq ho
    have key : ∀ a b : Option F32, parser buf BUF_SIZE a b = .ok (-1, a, b) := by
      intro a b
      have hp := parser_eq buf BUF_SIZE a b (by decide)
      by_cases h0 : firstLine buf = []
      · rw [hp, if_pos h0]
      rw [hp, if_neg h0, if_neg hq]
      cases hs : spaceTokens (leadingNewlines buf ++ firstLine buf) with
      | nil => rw [hs] at ht; simp at ht
      | cons t1 r =>
        rw [hs] at ht
        simp only [List.head?_cons, Option.some.injEq] at ht
        subst ht
        unfold parseTokens
        simp [htq, ho]
    exact ⟨key a b, respond_of_invalid buf _ _ (key none none)⟩

/-- C3 (amended): a text without any non-empty line, and a text whose first
non-empty line is not `QUIT` and which, up to the end of that line, has at
least one space-separated token and is, token by token, of neither of the forms
`QUIT ...` and `<OP> <A> <B>` (tokens separated by one or more spaces, `A` and
`B` of decimal digits only), gets the invalid status -1 from `parser` and the
response `ERR EINV entrada_invalida`. -/
theorem invalid_response (buf : List Nat) :
    (firstLine buf = [] →
      parser buf BUF_SIZE none none = .ok (-1, none, none) ∧
        respond buf = .ok (.send errInvalid)) ∧
    (firstLine buf ≠ bytes "QUIT" →
      spaceTokens (leadingNewlines buf ++ firstLine buf) ≠ [] →
      ¬ RequestTokens (spaceTokens (leadingNewlines buf ++ firstLine buf)) →
      (∃ a1 b1, parser buf BUF_SIZE none none = .ok (-1, a1, b1)) ∧
        respond buf = .ok (.send errInvalid)) := by
  have hp := parser_eq buf BUF_SIZE none none (by decide)
  constructor
  · intro h0
    rw [if_pos h0] at hp
    exact ⟨hp, respond_of_invalid buf _ _ hp⟩
  · intro hq hne hg
    by_cases h0 : firstLine buf = []
    · rw [if_pos h0] at hp
      exact ⟨⟨_, _, hp⟩, respond_of_invalid buf _ _ hp⟩
    · rw [if_neg h0, if_neg hq] at hp
      obtain ⟨a1, b1, h1⟩ := parseTokens_invalid _ none none hne hg
      rw [h1] at hp
      exact ⟨⟨_, _, hp⟩, respond_of_invalid buf _ _ hp⟩

/-- The request `FOO 1 2` of the specification is answered with `ERR EINV`. -/
theorem invalid_response_witness :
    (firstLine (bytes "FOO 1 2\n") ≠ bytes "QUIT" ∧
      spaceTokens (leadingNewlines (bytes "FOO 1 2\n") ++ firstLine (bytes "FOO 1 2\n")) ≠ [] ∧
      ¬ RequestTokens
        (spaceTokens (leadingNewlines (bytes "FOO 1 2\n") ++ firstLine (bytes "FOO 1 2\n")))) ∧
    ((∃ a1 b1, parser (bytes "FOO 1 2\n") BUF_SIZE none none = .ok (-1, a1, b1)) ∧
      respond (bytes "FOO 1 2\n") = .ok (.send errInvalid)) := by
  have h1 : firstLine (bytes "FOO 1 2\n") ≠ bytes "QUIT" := by decide
  have hs : spaceTokens (leadingNewlines (bytes "FOO 1 2\n") ++ firstLine (bytes "FOO 1 2\n")) =
      [bytes "FOO", bytes "1", bytes "2"] := by decide
  have h2 : spaceTokens (leadingNewlines (bytes "FOO 1 2\n") ++ firstLine (bytes "FOO 1 2\n"))
      ≠ [] := by
    rw [hs]
    simp
  have h3 : ¬ RequestTokens
      (spaceTokens (leadingNewlines (bytes "FOO 1 2\n") ++ firstLine (bytes "FOO 1 2\n"))) := by
    rw [hs]
    rintro (h | ⟨op, ta, tb, ho, -, -, he⟩)
    · revert h
      decide
    · simp only [List.cons.injEq, and_true] at he
      rw [← he.1] at ho
      revert ho
      decide
  exact ⟨⟨h1, h2, h3⟩, (invalid_response (bytes "FOO 1 2\n")).2 h1 h2 h3⟩

/-- C3 as stated fails: `ADD  1 2`, with two spaces after the keyword, is not
in the grammar of the specification and is answered with a result. -/
theorem invalid_response_counterexample :
    specGrammar (bytes "ADD  1 2") = false ∧
      firstLine (bytes "ADD  1 2\n") = bytes "ADD  1 2" ∧
      parser (bytes "ADD  1 2\n") BUF_SIZE none none =
        .ok (1, some (F32.ofNat 1), some (F32.ofNat 2)) ∧
      respond (bytes "ADD  1 2\n") = .ok (.send (bytes "OK 3.000000\n")) := by
  decide

/-- C4 as stated fails: the line `QUIT 1 2` is not the token `QUIT` alone, and
`parser` returns the terminate status for it. -/
theorem quit_status_counterexample :
    firstLine (bytes "QUIT 1 2\n") = bytes "QUIT 1 2" ∧
      bytes "QUIT 1 2" ≠ bytes "QUIT" ∧
      parser (bytes "QUIT 1 2\n") BUF_SIZE none none = .ok (0, none, none) ∧
      respond (bytes "QUIT 1 2\n") = .ok .closeConn := by
  decide

/-- The line `QUIT 1 2` read from slot 0, handle 4, closes the connection
without a response; the line `FOO 1 2` has a first token that is no keyword and
gets the invalid status. -/
theorem quit_status_iff_witness :
    ((TerminateLine (bytes "QUIT 1 2\n") ∧ (0 : Int) < 9 ∧
        Recv.request { n := 9, data := bytes "QUIT 1 2\n" } = bytes "QUIT 1 2\n") ∧
      serviceSlot demoServer 0 4 { n := 9, data := bytes "QUIT 1 2\n" } =
        .ok (dropClient demoServer 0 4, [Event.recv 0 4, Event.close 4])) ∧
    ((firstLine (bytes "FOO 1 2\n") ≠ bytes "QUIT" ∧
        (spaceTokens
          (leadingNewlines (bytes "FOO 1 2\n") ++ firstLine (bytes "FOO 1 2\n"))).head?
          = some (bytes "FOO") ∧
        bytes "FOO" ≠ bytes "QUIT" ∧ opCode (bytes "FOO") = none) ∧
      (parser (bytes "FOO 1 2\n") BUF_SIZE none none = .ok (-1, none, none) ∧
        respond (bytes "FOO 1 2\n") = .ok (.send errInvalid))) :=
  ⟨⟨⟨Or.inr ⟨by decide, by decide⟩, by decide, by decide⟩,
      (quit_status_iff (bytes "QUIT 1 2\n") none none).2.2.1 (Or.inr ⟨by decide, by decide⟩)
        demoServer 0 4 { n := 9, data := bytes "QUIT 1 2\n" } (by decide) (by decide)⟩,
    ⟨⟨by decide, by decide, by decide, by decide⟩,
      (quit_status_iff (bytes "FOO 1 2\n") none none).2.2.2 (bytes "FOO")
        (by decide) (by decide) (by decide) (by decide)⟩⟩

/-- C5, the failing input: on a line made of one space the second `strtok`
returns `NULL`, which `parser` hands to `strcmp`. -/
theorem parser_null_token :
    strtok (bytes " ") (bytes " ") = none ∧
      parser (bytes " \n") BUF_SIZE none none = .fault .nullDeref ∧
      respond (bytes " \n") = .fault .nullDeref := by
  decide

/-- C10, the failing input: the product of `MUL 1000000000000 1000000000000`
is rendered in 32 characters, which do not fit the 30 bytes of `number`. -/
theorem number_buffer_overflow :
    calculator (bytes "MUL 1000000000000 1000000000000\n") BUF_SIZE (F32.fin false 0) =
        .ok (3, F32.fin false (1000000013848427855085568 * F32.unit)) ∧
      fmt6 (F32.fin false (1000000013848427855085568 * F32.unit)) =
        bytes "1000000013848427855085568.000000" ∧
      (bytes "1000000013848427855085568.000000").length = 32 ∧
      respond (bytes "MUL 1000000000000 1000000000000\n") = .fault .bufferOverflow := by
  decide

/-- C1 (amended): for every request line `<OP> <A> <B>` in the form of the
grammar (for `DIV`, `B` with a digit other than `0`), `calculator` returns the
positive status of the operation and the `float` result of the operation on
`(float) atof(A)` and `(float) atof(B)`; when the `%.6f` text of that result
fits the `number` buffer the response is `OK <text>`; and when `A`, `B` and the
exact result are integers of magnitude below `2 ^ 24`, which `float` holds
exactly, the response is `OK` with the exact result and six zero decimals. -/
theorem ok_response_of_request (op ta tb rest : List Nat) (i : Int) (x0 : F32)
    (hop : opCode op = some i)
    (ha0 : ta ≠ []) (ha : digitsOnly ta = true) (hb0 : tb ≠ []) (hb : digitsOnly tb = true)
    (hdiv : i = 4 → ∃ c ∈ tb, c ≠ 48) :
    calculator (op ++ bytes " " ++ ta ++ bytes " " ++ tb ++ bytes "\n" ++ rest) BUF_SIZE x0 =
        .ok (i, arith i (atof ta) (atof tb)) ∧
      0 < i ∧
      ((fmt6 (arith i (atof ta) (atof tb))).length ≤ 29 →
        respond (op ++ bytes " " ++ ta ++ bytes " " ++ tb ++ bytes "\n" ++ rest) =
          .ok (.send (bytes "OK " ++ fmt6 (arith i (atof ta) (atof tb)) ++ bytes "\n"))) ∧
      (∀ z : Int, decVal ta < 2 ^ 24 → decVal tb < 2 ^ 24 →
        exactInt i (decVal ta) (decVal tb) = some z → z.natAbs < 2 ^ 24 →
        respond (op ++ bytes " " ++ ta ++ bytes " " ++ tb ++ bytes "\n" ++ rest) =
          .ok (.send (bytes "OK " ++ intText z ++ bytes "\n"))) := by
  have hi := opCode_range op i hop
  have hpos : 0 < i := by omega
  have hnz : ¬ (i = 4 ∧ (atof tb).isZero = true) := by
    rintro ⟨h4, hz⟩
    obtain ⟨c, hc, hc48⟩ := hdiv h4
    have hv : decVal tb ≠ 0 := fun h0 => hc48 ((decVal_eq_zero_iff tb hb).1 h0 c hc)
    rw [atof_ne_zero tb hv] at hz
    exact Bool.false_ne_true hz
  have hcalc : ∀ x, calculator (op ++ bytes " " ++ ta ++ bytes " " ++ tb ++ bytes "\n" ++ rest)
      BUF_SIZE x = .ok (i, arith i (atof ta) (atof tb)) := by
    intro x
    rw [calculator_request op ta tb rest i x hop ha0 ha hb0 hb, if_neg hnz]
  have hresp := respond_of_calculator _ i _ hpos (hcalc (F32.fin false 0))
  refine ⟨hcalc x0, hpos, ?_, ?_⟩
  · intro hlen
    rw [hresp, if_neg (by omega)]
  · intro z hx hy he hz
    have hz1 : |z| < 2 ^ 24 := by
      rw [Int.abs_eq_natAbs]
      exact_mod_cast hz
    have hf : fmt6 (arith i (atof ta) (atof tb)) = intText z := by
      rw [atof_small ta hx, atof_small tb hy]
      exact arith_exact i _ _ z hi hx hy he hz1
    have hl := length_intText z hz1
    rw [hresp, hf, if_neg (by omega)]

/-- The request `ADD 2 3` of the specification is answered with `OK 5.000000`. -/
theorem ok_response_of_request_witness :
    (opCode (bytes "ADD") = some 1 ∧ bytes "2" ≠ [] ∧ digitsOnly (bytes "2") = true ∧
      bytes "3" ≠ [] ∧ digitsOnly (bytes "3") = true ∧
      decVal (bytes "2") < 2 ^ 24 ∧ decVal (bytes "3") < 2 ^ 24 ∧
      exactInt 1 (decVal (bytes "2")) (decVal (bytes "3")) = some 5 ∧
      (5 : Int).natAbs < 2 ^ 24 ∧
      bytes "OK " ++ intText 5 ++ bytes "\n" = bytes "OK 5.000000\n") ∧
    respond (bytes "ADD" ++ bytes " " ++ bytes "2" ++ bytes " " ++ bytes "3" ++ bytes "\n" ++ []) =
      .ok (.send (bytes "OK " ++ intText 5 ++ bytes "\n")) :=
  ⟨⟨by decide, by decide, by decide, by decide, by decide, by decide, by decide, by decide,
      by decide, by decide⟩,
    (ok_response_of_request (bytes "ADD") (bytes "2") (bytes "3") [] 1 (F32.fin false 0)
      (by decide) (by decide) (by decide) (by decide) (by decide)
      (fun h => absurd h (by decide))).2.2.2 5 (by decide) (by decide) (by decide) (by decide)⟩

/-- C1 as stated fails: `16777217 + 0` is answered with `16777216.000000`,
the nearest `float` to the first operand. -/
theorem ok_response_counterexample :
    respond (bytes "ADD 16777217 0\n") = .ok (.send (bytes "OK 16777216.000000\n")) ∧
      exactInt 1 16777217 0 = some 16777217 ∧
      bytes "OK 16777216.000000\n" ≠ bytes "OK " ++ intText 16777217 ++ bytes "\n" := by
  decide

/-- C2: a request `DIV <A> <B>` in the form of the grammar whose `B` has only
the digit `0` makes `calculator` return -2 and leave the result variable
untouched, and the response is `ERR EZDV divisao_por_zero`, whatever `A` is;
when `B` has another digit, `calculator` returns 4 and the response is not
that one. -/
theorem div_zero_response (ta tb rest : List Nat) (x0 : F32)
    (ha0 : ta ≠ []) (ha : digitsOnly ta = true) (hb0 : tb ≠ []) (hb : digitsOnly tb = true) :
    ((∀ c ∈ tb, c = 48) →
      calculator (bytes "DIV" ++ bytes " " ++ ta ++ bytes " " ++ tb ++ bytes "\n" ++ rest)
          BUF_SIZE x0 = .ok (-2, x0) ∧
        respond (bytes "DIV" ++ bytes " " ++ ta ++ bytes " " ++ tb ++ bytes "\n" ++ rest) =
          .ok (.send errDivZero)) ∧
    ((∃ c ∈ tb, c ≠ 48) →
      calculator (bytes "DIV" ++ bytes " " ++ ta ++ bytes " " ++ tb ++ bytes "\n" ++ rest)
          BUF_SIZE x0 = .ok (4, F32.div (atof ta) (atof tb)) ∧
        respond (bytes "DIV" ++ bytes " " ++ ta ++ bytes " " ++ tb ++ bytes "\n" ++ rest) ≠
          .ok (.send errDivZero)) := by
  have hop : opCode (bytes "DIV") = some 4 := by decide
  have hcalc := fun x => calculator_request (bytes "DIV") ta tb rest 4 x hop ha0 ha hb0 hb
  constructor
  · intro hz
    have hv : decVal tb = 0 := (decVal_eq_zero_iff tb hb).2 hz
    have hzero : (atof tb).isZero = true := by
      rw [atof_of_decVal_zero tb hv]
      rfl
    constructor
    · rw [hcalc x0, if_pos ⟨rfl, hzero⟩]
    · unfold respond
      rw [hcalc _, if_pos ⟨rfl, hzero⟩]
      rfl
  · rintro ⟨c, hc, hc48⟩
    have hv : decVal tb ≠ 0 := fun h0 => hc48 ((decVal_eq_zero_iff tb hb).1 h0 c hc)
    have hnz : ¬ ((4 : Int) = 4 ∧ (atof tb).isZero = true) := by
      rw [atof_ne_zero tb hv]
      simp
    have h4 : ∀ x, calculator
        (bytes "DIV" ++ bytes " " ++ ta ++ bytes " " ++ tb ++ bytes "\n" ++ rest) BUF_SIZE x =
        .ok (4, F32.div (atof ta) (atof tb)) := by
      intro x
      rw [hcalc x, if_neg hnz]
      rfl
    refine ⟨h4 x0, ?_⟩
    rw [respond_of_calculator _ 4 _ (by decide) (h4 _)]
    split_ifs
    · simp
    · intro h
      have h1 : bytes "OK " ++ fmt6 ((atof ta).div (atof tb)) ++ bytes "\n" = errDivZero := by
        simpa using h
      have h2 : (bytes "OK " ++ fmt6 ((atof ta).div (atof tb)) ++ bytes "\n").head? =
          errDivZero.head? := by rw [h1]
      have h3 : bytes "OK " = 79 :: [75, 32] := rfl
      rw [h3] at h2
      simp only [List.cons_append, List.head?_cons] at h2
      revert h2
      decide

/-- The request `DIV 10 0` of the specification is answered with `ERR EZDV`
and leaves the result variable, here 7, as it was; `DIV 10 5` is divided. -/
theorem div_zero_response_witness :
    ((bytes "10" ≠ [] ∧ digitsOnly (bytes "10") = true ∧ bytes "0" ≠ [] ∧
        digitsOnly (bytes "0") = true ∧ (∀ c ∈ bytes "0", c = 48)) ∧
      (calculator
          (bytes "DIV" ++ bytes " " ++ bytes "10" ++ bytes " " ++ bytes "0" ++ bytes "\n" ++ [])
          BUF_SIZE (F32.ofNat 7) = .ok (-2, F32.ofNat 7) ∧
        respond
          (bytes "DIV" ++ bytes " " ++ bytes "10" ++ bytes " " ++ bytes "0" ++ bytes "\n" ++ []) =
          .ok (.send errDivZero))) ∧
    ((bytes "5" ≠ [] ∧ digitsOnly (bytes "5") = true ∧ (∃ c ∈ bytes "5", c ≠ 48)) ∧
      (calculator
          (bytes "DIV" ++ bytes " " ++ bytes "10" ++ bytes " " ++ bytes "5" ++ bytes "\n" ++ [])
          BUF_SIZE (F32.ofNat 7) = .ok (4, F32.div (atof (bytes "10")) (atof (bytes "5"))) ∧
        respond
          (bytes "DIV" ++ bytes " " ++ bytes "10" ++ bytes " " ++ bytes "5" ++ bytes "\n" ++ []) ≠
          .ok (.send errDivZero))) :=
  ⟨⟨⟨by decide, by decide, by decide, by decide, by decide⟩,
      (div_zero_response (bytes "10") (bytes "0") [] (F32.ofNat 7)
        (by decide) (by decide) (by decide) (by decide)).1 (by decide)⟩,
    ⟨⟨by decide, by decide, by decide⟩,
      (div_zero_response (bytes "10") (bytes "5") [] (F32.ofNat 7)
        (by decide) (by decide) (by decide) (by decide)).2 (by decide)⟩⟩

/-! ## Where `parser` leaves defined behaviour -/

theorem parseTokens_cases (toks : List (List Nat)) (a b : Option F32) :
    (toks = [] ∧ parseTokens toks a b = .fault .nullDeref) ∨
      (toks ≠ [] ∧
        ∃ st a1 b1, parseTokens toks a b = .ok (st, a1, b1) ∧ -1 ≤ st ∧ st ≤ 4) := by
  unfold parseTokens
  cases toks with
  | nil => exact Or.inl ⟨rfl, rfl⟩
  | cons op args =>
    right
    refine ⟨by simp, ?_⟩
    by_cases hq : op = bytes "QUIT"
    · exact ⟨0, a, b, by simp [hq], by decide, by decide⟩
    · simp only [hq, if_false]
      cases ho : opCode op with
      | none => exact ⟨-1, a, b, rfl, by decide, by decide⟩
      | some i =>
        have hi := opCode_range op i ho
        match args with
        | [] => exact ⟨-1, a, b, rfl, by decide, by decide⟩
        | [ta] =>
          simp only []
          split_ifs
          · exact ⟨-1, _, _, rfl, by decide, by decide⟩
          · exact ⟨-1, _, _, rfl, by decide, by decide⟩
        | ta :: tb :: more =>
          simp only []
          split_ifs
          · exact ⟨-1, _, _, rfl, by decide, by decide⟩
          · exact ⟨-1, _, _, rfl, by decide, by decide⟩
          · exact ⟨i, _, _, rfl, by omega, by omega⟩
          · exact ⟨-1, _, _, rfl, by decide, by decide⟩

/-- Function `parser` returns one of the statuses -1, 0, 1, 2, 3, 4 on every
text except those whose first line is not empty and has no token, that is,
consists of spaces: there it passes a null pointer to `strcmp`. -/
theorem parser_fault_or_status (buf : List Nat) (a b : Option F32) :
    (firstLine buf ≠ [] ∧ spaceTokens (leadingNewlines buf ++ firstLine buf) = [] ∧
        parser buf BUF_SIZE a b = .fault .nullDeref) ∨
      (∃ st a1 b1, parser buf BUF_SIZE a b = .ok (st, a1, b1) ∧ -1 ≤ st ∧ st ≤ 4) := by
  have hp := parser_eq buf BUF_SIZE a b (by decide)
  by_cases h0 : firstLine buf = []
  · rw [if_pos h0] at hp
    exact Or.inr ⟨-1, a, b, hp, by decide, by decide⟩
  rw [if_neg h0] at hp
  by_cases hq : firstLine buf = bytes "QUIT"
  · rw [if_pos hq] at hp
    exact Or.inr ⟨0, a, b, hp, by decide, by decide⟩
  rw [if_neg hq] at hp
  rcases parseTokens_cases (spaceTokens (leadingNewlines buf ++ firstLine buf)) a b with
    ⟨h1, h2⟩ | ⟨-, st, a1, b1, h2, h3, h4⟩
  · exact Or.inl ⟨h0, h1, by rw [hp, h2]⟩
  · exact Or.inr ⟨st, a1, b1, by rw [hp, h2], h3, h4⟩

/-! ## The block after `accept` -/

theorem insertLoop_full (connfd : Int) (l : List Int) (i : Nat) (h : ∀ c ∈ l, 0 ≤ c) :
    insertLoop connfd l i = (l, i + l.length) := by
  induction l generalizing i with
  | nil => rfl
  | cons c cs ih =>
    have hc : ¬ c < 0 := not_lt.2 (h c (by simp))
    have := ih (i + 1) (fun d hd => h d (by simp [hd]))
    simp only [insertLoop, if_neg hc, this, List.length_cons]
    refine Prod.ext rfl ?_
    show i + 1 + cs.length = i + (cs.length + 1)
    omega

theorem insertLoop_free (connfd : Int) (l : List Int) (i k : Nat) (c : Int)
    (hk : l[k]? = some c) (hc : c < 0) (hlow : ∀ j < k, ∀ d, l[j]? = some d → 0 ≤ d) :
    insertLoop connfd l i = (l.set k connfd, i + k) := by
  induction l generalizing i k with
  | nil => simp at hk
  | cons x xs ih =>
    cases k with
    | zero =>
      simp only [List.getElem?_cons_zero, Option.some.injEq] at hk
      subst hk
      simp [insertLoop, hc]
    | succ k =>
      have hx : ¬ x < 0 := not_lt.2 (hlow 0 (by omega) x (by simp))
      have := ih (i + 1) k (by simpa using hk)
        (fun j hj d hd => hlow (j + 1) (by omega) d (by simpa using hd))
      simp only [insertLoop, if_neg hx, this, List.set_cons_succ]
      refine Prod.ext rfl ?_
      show i + 1 + k = i + (k + 1)
      omega

/-- A table with a free slot has a lowest free slot. -/
theorem exists_lowest_free (l : List Int) (h : ∃ c ∈ l, c < 0) :
    ∃ (k : Nat) (c : Int),
      l[k]? = some c ∧ c < 0 ∧ ∀ j < k, ∀ d, l[j]? = some d → 0 ≤ d := by
  induction l with
  | nil => simp at h
  | cons x xs ih =>
    by_cases hx : x < 0
    · exact ⟨0, x, by simp, hx, fun j hj => absurd hj (by omega)⟩
    · have h1 : ∃ c ∈ xs, c < 0 := by
        obtain ⟨c, hc, hc0⟩ := h
        rcases List.mem_cons.1 hc with rfl | hc
        · exact absurd hc0 hx
        · exact ⟨c, hc, hc0⟩
      obtain ⟨k, c, hk, hc, hlow⟩ := ih h1
      refine ⟨k + 1, c, by simpa using hk, hc, ?_⟩
      intro j hj d hd
      cases j with
      | zero =>
        simp only [List.getElem?_cons_zero, Option.some.injEq] at hd
        omega
      | succ j => exact hlow j (by omega) d (by simpa using hd)

theorem acceptStep_neg (s : Server) (connfd : Int) (h : connfd < 0) :
    acceptStep s connfd = .ok (s, []) := by
  unfold acceptStep
  rw [if_pos h]

theorem acceptStep_full (s : Server) (connfd : Int) (h : 0 ≤ connfd)
    (hfull : ∀ c ∈ s.clients, 0 ≤ c) : acceptStep s connfd = .ok (s, [Event.close connfd]) := by
  unfold acceptStep
  rw [if_neg (not_lt.2 h)]
  simp only [insertLoop_full connfd s.clients 0 hfull, Nat.zero_add, if_true]

theorem lt_length_of_getElem? (l : List Int) (k : Nat) (c : Int) (hk : l[k]? = some c) :
    k < l.length := by
  by_contra hge
  rw [List.getElem?_eq_none (by omega)] at hk
  simp at hk

/-- With a free slot and a handle below `FD_SETSIZE`, the handle is registered
in the lowest free slot. -/
theorem acceptStep_free (s : Server) (connfd : Int) (h : 0 ≤ connfd) (k : Nat) (c : Int)
    (hk : s.clients[k]? = some c) (hc : c < 0)
    (hlow : ∀ j < k, ∀ d, s.clients[j]? = some d → 0 ≤ d)
    (hfd : connfd < (s.FD_SETSIZE : Int)) :
    acceptStep s connfd = .ok (register s k connfd, [Event.send connfd welcome]) := by
  have hlt := lt_length_of_getElem? s.clients k c hk
  unfold acceptStep
  rw [if_neg (not_lt.2 h)]
  simp only [insertLoop_free connfd s.clients 0 k c hk hc hlow, Nat.zero_add]
  rw [if_neg (by omega), if_neg (by omega)]
  rfl

/-- With a free slot and a handle of `FD_SETSIZE` or more, `FD_SET` writes past
the watch-set. -/
theorem acceptStep_overflow (s : Server) (connfd : Int) (k : Nat) (c : Int)
    (hk : s.clients[k]? = some c) (hc : c < 0)
    (hlow : ∀ j < k, ∀ d, s.clients[j]? = some d → 0 ≤ d)
    (hfd : (s.FD_SETSIZE : Int) ≤ connfd) :
    acceptStep s connfd = .fault .outOfBounds := by
  have hlt := lt_length_of_getElem? s.clients k c hk
  have h0 : ¬ connfd < 0 := by
    have : (0 : Int) ≤ (s.FD_SETSIZE : Int) := Int.natCast_nonneg _
    omega
  unfold acceptStep
  rw [if_neg h0]
  simp only [insertLoop_free connfd s.clients 0 k c hk hc hlow, Nat.zero_add]
  rw [if_neg (by omega), if_pos hfd]

/-- The outcomes of the block after `accept` when it runs without fault: the
state is left as it was, or the handle, which is below `FD_SETSIZE`, is
registered in the lowest free slot. -/
theorem acceptStep_cases (s : Server) (connfd : Int) (s1 : Server) (ev : List Event)
    (h : acceptStep s connfd = .ok (s1, ev)) :
    (s1 = s ∧ recvSlots ev = []) ∨
      (∃ (k : Nat) (c : Int), s.clients[k]? = some c ∧ c < 0 ∧
        (∀ j < k, ∀ d, s.clients[j]? = some d → 0 ≤ d) ∧ 0 ≤ connfd ∧
        connfd < (s.FD_SETSIZE : Int) ∧ s1 = register s k connfd ∧
        ev = [Event.send connfd welcome]) := by
  by_cases hneg : connfd < 0
  · rw [acceptStep_neg s connfd hneg] at h
    simp only [Res.ok.injEq, Prod.mk.injEq] at h
    exact Or.inl ⟨h.1.symm, h.2 ▸ rfl⟩
  have hpos : 0 ≤ connfd := not_lt.1 hneg
  by_cases hfull : ∀ c ∈ s.clients, 0 ≤ c
  · rw [acceptStep_full s connfd hpos hfull] at h
    simp only [Res.ok.injEq, Prod.mk.injEq] at h
    exact Or.inl ⟨h.1.symm, h.2 ▸ rfl⟩
  have hex : ∃ c ∈ s.clients, c < 0 := by
    by_contra hcon
    apply hfull
    intro c hc
    by_contra hc0
    exact hcon ⟨c, hc, not_le.1 hc0⟩
  obtain ⟨k, c, hk, hc, hlow⟩ := exists_lowest_free s.clients hex
  by_cases hfd : connfd < (s.FD_SETSIZE : Int)
  · rw [acceptStep_free s connfd hpos k c hk hc hlow hfd] at h
    simp only [Res.ok.injEq, Prod.mk.injEq] at h
    exact Or.inr ⟨k, c, hk, hc, hlow, hpos, hfd, h.1.symm, h.2.symm⟩
  · rw [acceptStep_overflow s connfd k c hk hc hlow (not_lt.1 hfd)] at h
    simp at h

/-! ## The service of a slot -/

theorem serviceSlot_closed (s : Server) (i : Nat) (fd : Int) (r : Recv)
    (h : r.n ≤ 0 ∨ (0 < r.n ∧ respond r.request = .ok .closeConn)) :
    serviceSlot s i fd r = .ok (dropClient s i fd, [Event.recv i fd, Event.close fd]) := by
  unfold serviceSlot
  rcases h with h | ⟨h1, h2⟩
  · rw [if_pos h]
  · rw [if_neg (by omega), h2]

theorem serviceSlot_answered (s : Server) (i : Nat) (fd : Int) (r : Recv) (msg : List Nat)
    (h1 : 0 < r.n) (h2 : respond r.request = .ok (.send msg)) :
    serviceSlot s i fd r = .ok (s, [Event.recv i fd, Event.send fd msg]) := by
  unfold serviceSlot
  rw [if_neg (by omega), h2]

/-- The outcomes of the service of a slot: the connection is dropped or the
state is left as it was; one `recv` is made, on that slot. -/
theorem serviceSlot_cases (s : Server) (i : Nat) (fd : Int) (r : Recv) (s1 : Server)
    (ev : List Event) (h : serviceSlot s i fd r = .ok (s1, ev)) :
    (s1 = dropClient s i fd ∨ s1 = s) ∧ recvSlots ev = [i] := by
  unfold serviceSlot at h
  split_ifs at h with hn
  · simp only [Res.ok.injEq, Prod.mk.injEq] at h
    obtain ⟨rfl, rfl⟩ := h
    exact ⟨Or.inl rfl, rfl⟩
  · cases hr : respond r.request with
    | fault f => rw [hr] at h; simp at h
    | ok act =>
      rw [hr] at h
      cases act with
      | closeConn =>
        simp only [Res.ok.injEq, Prod.mk.injEq] at h
        obtain ⟨rfl, rfl⟩ := h
        exact ⟨Or.inl rfl, rfl⟩
      | send msg =>
        simp only [Res.ok.injEq, Prod.mk.injEq] at h
        obtain ⟨rfl, rfl⟩ := h
        exact ⟨Or.inr rfl, rfl⟩

/-- C7: the service of the ready connection in slot `i` leaves the whole state
as it was when the request is answered with a message (`ERR EINV`, `ERR EZDV`
or `OK`); when `recv` returns zero or less, or the request is a `QUIT`, slot
`i` becomes free and its handle leaves the watch-set, every other slot and
every other watched handle stays, and `max_i` and `maxfd` are not changed. -/
theorem service_frame (s : Server) (i : Nat) (fd : Int) (r : Recv) :
    (∀ msg, 0 < r.n → respond r.request = .ok (.send msg) →
      serviceSlot s i fd r = .ok (s, [Event.recv i fd, Event.send fd msg])) ∧
    ((r.n ≤ 0 ∨ (0 < r.n ∧ respond r.request = .ok .closeConn)) →
      ∃ s1, serviceSlot s i fd r = .ok (s1, [Event.recv i fd, Event.close fd]) ∧
        s1.clients = s.clients.set i (-1) ∧
        (i < s.clients.length → s1.clients[i]? = some (-1)) ∧
        (∀ j : Nat, j ≠ i → s1.clients[j]? = s.clients[j]?) ∧
        s1.allset = s.allset.erase fd ∧
        fd ∉ s1.allset ∧
        (∀ g, g ≠ fd → (g ∈ s1.allset ↔ g ∈ s.allset)) ∧
        s1.max_i = s.max_i ∧ s1.maxfd = s.maxfd ∧ s1.listen_fd = s.listen_fd) := by
  constructor
  · intro msg h1 h2
    exact serviceSlot_answered s i fd r msg h1 h2
  · intro h
    refine ⟨dropClient s i fd, serviceSlot_closed s i fd r h, rfl, ?_, ?_, rfl, ?_, ?_, rfl, rfl,
      rfl⟩
    · intro hi
      simp [dropClient, hi]
    · intro j hj
      simp [dropClient, List.getElem?_set_ne (Ne.symm hj)]
    · simp [dropClient]
    · intro g hg
      simp [dropClient, hg]

/-! ## The invariant of the registry -/

theorem getElem?_replicate_some (n : Nat) (a c : Int) (i : Nat)
    (h : (List.replicate n a)[i]? = some c) : c = a := by
  have hm : c ∈ List.replicate n a := List.mem_iff_getElem?.2 ⟨i, h⟩
  exact (List.mem_replicate.1 hm).2

theorem inv_base (listen_fd : Int) (fdSetSize : Nat) (h : 0 ≤ listen_fd)
    (hlt : listen_fd < (fdSetSize : Int)) : Inv (Server.base listen_fd fdSetSize) := by
  unfold Server.base
  refine ⟨?_, ?_, ?_, ?_, h, ?_, ?_⟩
  · intro fd
    simp only [Finset.mem_singleton, Occupied]
    constructor
    · exact fun h1 => Or.inl h1
    · rintro (h1 | ⟨h1, h2⟩)
      · exact h1
      · have := (List.mem_replicate.1 h2).2
        omega
  · intro i j fd hi _ hfd
    have := getElem?_replicate_some _ _ _ _ hi
    omega
  · intro i fd hi hfd
    have := getElem?_replicate_some _ _ _ _ hi
    omega
  · show (-1 : Int) < ((List.replicate fdSetSize (-1 : Int)).length : Int)
    omega
  · intro hm
    have h1 : listen_fd = -1 := (List.mem_replicate.1 hm).2
    omega
  · intro fd hfd
    have h1 : fd = listen_fd := Finset.mem_singleton.1 hfd
    show fd < ((List.replicate fdSetSize (-1 : Int)).length : Int)
    rw [List.length_replicate, h1]
    exact hlt

theorem init_cases (listen_fd : Int) (fdSetSize : Nat) (s : Server)
    (h : Server.init listen_fd fdSetSize = .ok s) :
    0 ≤ listen_fd ∧ listen_fd < (fdSetSize : Int) ∧ s = Server.base listen_fd fdSetSize := by
  unfold Server.init at h
  by_cases h1 : listen_fd < 0
  · rw [if_pos h1] at h
    simp at h
  rw [if_neg h1] at h
  by_cases h2 : (fdSetSize : Int) ≤ listen_fd
  · rw [if_pos h2] at h
    simp at h
  rw [if_neg h2] at h
  simp only [Res.ok.injEq] at h
  exact ⟨by omega, by omega, h.symm⟩

theorem inv_init (listen_fd : Int) (fdSetSize : Nat) (s : Server)
    (h : Server.init listen_fd fdSetSize = .ok s) : Inv s := by
  obtain ⟨h0, h1, rfl⟩ := init_cases listen_fd fdSetSize s h
  exact inv_base listen_fd fdSetSize h0 h1

theorem getElem?_set_some (l : List Int) (k j : Nat) (a c : Int)
    (h : (l.set k a)[j]? = some c) : (j = k ∧ c = a) ∨ (j ≠ k ∧ l[j]? = some c) := by
  by_cases hjk : j = k
  · subst hjk
    left
    by_cases hlt : j < l.length
    · rw [List.getElem?_set_self hlt] at h
      simp only [Option.some.injEq] at h
      exact ⟨rfl, h.symm⟩
    · rw [List.getElem?_eq_none (by simpa using hlt)] at h
      simp at h
  · right
    rw [List.getElem?_set_ne (Ne.symm hjk)] at h
    exact ⟨hjk, h⟩

theorem inv_register (s : Server) (connfd : Int) (k : Nat) (c : Int) (hinv : Inv s)
    (hk : s.clients[k]? = some c) (hc : c < 0) (hpos : 0 ≤ connfd)
    (hsz : connfd < (s.FD_SETSIZE : Int)) (hnew : connfd ∉ s.allset) :
    Inv (register s k connfd) := by
  have hlt := lt_length_of_getElem? s.clients k c hk
  have hkk : (s.clients.set k connfd)[k]? = some connfd := by simp [hlt]
  have hnotocc : ¬ Occupied s connfd := fun ho => hnew ((hinv.watch connfd).2 (Or.inr ho))
  have hnotl : connfd ≠ s.listen_fd := fun he => hnew ((hinv.watch connfd).2 (Or.inl he))
  unfold register
  refine ⟨?_, ?_, ?_, ?_, hinv.lpos, ?_, ?_⟩
  · intro fd
    simp only [Finset.mem_insert, Occupied, hinv.watch fd]
    constructor
    · rintro (h1 | h1 | ⟨h1, h2⟩)
      · right
        subst h1
        exact ⟨hpos, List.mem_iff_getElem?.2 ⟨k, hkk⟩⟩
      · exact Or.inl h1
      · right
        refine ⟨h1, ?_⟩
        obtain ⟨j, hj⟩ := List.mem_iff_getElem?.1 h2
        have hjk : j ≠ k := by
          rintro rfl
          rw [hk] at hj
          simp only [Option.some.injEq] at hj
          omega
        exact List.mem_iff_getElem?.2 ⟨j, by rw [List.getElem?_set_ne (Ne.symm hjk)]; exact hj⟩
    · rintro (h1 | ⟨h1, h2⟩)
      · exact Or.inr (Or.inl h1)
      · obtain ⟨j, hj⟩ := List.mem_iff_getElem?.1 h2
        rcases getElem?_set_some _ _ _ _ _ hj with ⟨-, h3⟩ | ⟨-, h3⟩
        · exact Or.inl h3
        · exact Or.inr (Or.inr ⟨h1, List.mem_iff_getElem?.2 ⟨j, h3⟩⟩)
  · intro i j fd hi hj hfd
    rcases getElem?_set_some _ _ _ _ _ hi with ⟨h1, h2⟩ | ⟨h1, h2⟩ <;>
      rcases getElem?_set_some _ _ _ _ _ hj with ⟨h3, h4⟩ | ⟨h3, h4⟩
    · omega
    · subst h2
      exact absurd ⟨hfd, List.mem_iff_getElem?.2 ⟨j, h4⟩⟩ hnotocc
    · subst h4
      exact absurd ⟨hfd, List.mem_iff_getElem?.2 ⟨i, h2⟩⟩ hnotocc
    · exact hinv.inj i j fd h2 h4 hfd
  · intro i fd hi hfd
    show (i : Int) ≤ if s.max_i < (k : Int) then (k : Int) else s.max_i
    rcases getElem?_set_some _ _ _ _ _ hi with ⟨h1, -⟩ | ⟨-, h2⟩
    · subst h1
      split_ifs <;> omega
    · have := hinv.below i fd h2 hfd
      split_ifs <;> omega
  · show (if s.max_i < (k : Int) then (k : Int) else s.max_i) <
      ((s.clients.set k connfd).length : Int)
    have := hinv.bound
    rw [List.length_set]
    split_ifs <;> omega
  · show s.listen_fd ∉ s.clients.set k connfd
    intro hm
    obtain ⟨j, hj⟩ := List.mem_iff_getElem?.1 hm
    rcases getElem?_set_some _ _ _ _ _ hj with ⟨-, h3⟩ | ⟨-, h3⟩
    · exact hnotl h3.symm
    · exact hinv.listener (List.mem_iff_getElem?.2 ⟨j, h3⟩)
  · intro fd hfd1
    show fd < ((s.clients.set k connfd).length : Int)
    rw [List.length_set]
    rcases Finset.mem_insert.1 hfd1 with h1 | h1
    · rw [h1]
      exact hsz
    · exact hinv.inRange fd h1

theorem inv_accept (s : Server) (connfd : Int) (s1 : Server) (ev : List Event) (hinv : Inv s)
    (hfresh : connfd < 0 ∨ connfd ∉ s.allset) (hs : acceptStep s connfd = .ok (s1, ev)) :
    Inv s1 := by
  rcases acceptStep_cases s connfd s1 ev hs with ⟨rfl, -⟩ | ⟨k, c, hk, hc, -, hpos, hfd, rfl, -⟩
  · exact hinv
  · exact inv_register s connfd k c hinv hk hc hpos hfd
      (hfresh.resolve_left (not_lt.2 hpos))

theorem inv_dropClient (s : Server) (i : Nat) (fd : Int) (hinv : Inv s)
    (hi : s.clients[i]? = some fd) (hfd : 0 ≤ fd) : Inv (dropClient s i fd) := by
  have hocc : fd ∈ s.clients := List.mem_iff_getElem?.2 ⟨i, hi⟩
  have hl : fd ≠ s.listen_fd := fun he => hinv.listener (he ▸ hocc)
  unfold dropClient
  refine ⟨?_, ?_, ?_, ?_, hinv.lpos, ?_, ?_⟩
  · intro g
    simp only [Finset.mem_erase, Occupied, hinv.watch g]
    constructor
    · rintro ⟨h1, h2 | ⟨h2, h3⟩⟩
      · exact Or.inl h2
      · right
        refine ⟨h2, ?_⟩
        obtain ⟨j, hj⟩ := List.mem_iff_getElem?.1 h3
        have hji : j ≠ i := by
          rintro rfl
          rw [hi] at hj
          simp only [Option.some.injEq] at hj
          exact h1 hj.symm
        exact List.mem_iff_getElem?.2 ⟨j, by rw [List.getElem?_set_ne (Ne.symm hji)]; exact hj⟩
    · rintro (h1 | ⟨h1, h2⟩)
      · exact ⟨fun he => hl (he ▸ h1), Or.inl h1⟩
      · obtain ⟨j, hj⟩ := List.mem_iff_getElem?.1 h2
        rcases getElem?_set_some _ _ _ _ _ hj with ⟨-, h3⟩ | ⟨h3, h4⟩
        · omega
        · refine ⟨?_, Or.inr ⟨h1, List.mem_iff_getElem?.2 ⟨j, h4⟩⟩⟩
          rintro rfl
          exact h3 (hinv.inj j i g h4 hi h1)
  · intro a b g ha hb hg
    rcases getElem?_set_some _ _ _ _ _ ha with ⟨-, h2⟩ | ⟨-, h2⟩
    · omega
    · rcases getElem?_set_some _ _ _ _ _ hb with ⟨-, h4⟩ | ⟨-, h4⟩
      · omega
      · exact hinv.inj a b g h2 h4 hg
  · intro a g ha hg
    rcases getElem?_set_some _ _ _ _ _ ha with ⟨-, h2⟩ | ⟨-, h2⟩
    · omega
    · exact hinv.below a g h2 hg
  · show s.max_i < ((s.clients.set i (-1)).length : Int)
    rw [List.length_set]
    exact hinv.bound
  · show s.listen_fd ∉ s.clients.set i (-1)
    intro hm
    obtain ⟨j, hj⟩ := List.mem_iff_getElem?.1 hm
    rcases getElem?_set_some _ _ _ _ _ hj with ⟨-, h3⟩ | ⟨-, h3⟩
    · have := hinv.lpos
      omega
    · exact hinv.listener (List.mem_iff_getElem?.2 ⟨j, h3⟩)
  · intro g hg
    show g < ((s.clients.set i (-1)).length : Int)
    rw [List.length_set]
    exact hinv.inRange g (Finset.mem_of_mem_erase hg)

theorem inv_service (s : Server) (i : Nat) (fd : Int) (r : Recv) (s1 : Server)
    (ev : List Event) (hinv : Inv s) (hi : s.clients[i]? = some fd) (hfd : 0 ≤ fd)
    (h : serviceSlot s i fd r = .ok (s1, ev)) : Inv s1 := by
  rcases (serviceSlot_cases s i fd r s1 ev h).1 with rfl | rfl
  · exact inv_dropClient s i fd hinv hi hfd
  · exact hinv

theorem inv_step (s s1 : Server) (hinv : Inv s) (h : Step s s1) : Inv s1 := by
  match h with
  | .accept _ connfd _ ev hf hs => exact inv_accept s connfd s1 ev hinv hf hs
  | .service _ i fd r _ ev hi hfd hs => exact inv_service s i fd r s1 ev hinv hi hfd hs

theorem inv_of_reachable (s : Server) (h : Reachable s) : Inv s := by
  induction h with
  | init l n s h => exact inv_init l n s h
  | step s s1 _ hstep ih => exact inv_step s s1 ih hstep

theorem listen_fd_step (s s1 : Server) (h : Step s s1) : s1.listen_fd = s.listen_fd := by
  match h with
  | .accept _ connfd _ ev hf hs =>
    rcases acceptStep_cases s connfd s1 ev hs with ⟨rfl, -⟩ | ⟨k, c, -, -, -, -, -, rfl, -⟩ <;>
      rfl
  | .service _ i fd r _ ev hi hfd hs =>
    rcases (serviceSlot_cases s i fd r s1 ev hs).1 with rfl | rfl <;> rfl

/-- In every step from a state with the invariant, the handles that enter the
table are those that enter the watch-set, and the handles that leave the table
are those that leave it. -/
theorem step_enters_leaves (s s1 : Server) (hinv : Inv s) (hstep : Step s s1) (fd : Int) :
    ((Occupied s1 fd ∧ ¬ Occupied s fd) ↔ (fd ∈ s1.allset ∧ fd ∉ s.allset)) ∧
      ((Occupied s fd ∧ ¬ Occupied s1 fd) ↔ (fd ∈ s.allset ∧ fd ∉ s1.allset)) := by
  have hinv1 := inv_step s s1 hinv hstep
  have hl := listen_fd_step s s1 hstep
  have hns : ¬ Occupied s s.listen_fd := fun ho => hinv.listener ho.2
  have hns1 : ¬ Occupied s1 s.listen_fd := fun ho => hinv1.listener (by rw [hl]; exact ho.2)
  rw [hinv.watch fd, hinv1.watch fd, hl]
  by_cases he : fd = s.listen_fd
  · subst he
    tauto
  · tauto

/-! ## The client scan -/

theorem recvSlots_append (ev1 ev2 : List Event) :
    recvSlots (ev1 ++ ev2) = recvSlots ev1 ++ recvSlots ev2 := by
  unfold recvSlots
  rw [List.filterMap_append]

theorem serviceSlot_total (s : Server) (i : Nat) (fd : Int) (r : Recv)
    (hsafe : 0 < r.n → ∃ act, respond r.request = .ok act) :
    ∃ s1 ev, serviceSlot s i fd r = .ok (s1, ev) := by
  by_cases hn : r.n ≤ 0
  · exact ⟨_, _, serviceSlot_closed s i fd r (Or.inl hn)⟩
  · obtain ⟨act, ha⟩ := hsafe (by omega)
    cases act with
    | closeConn => exact ⟨_, _, serviceSlot_closed s i fd r (Or.inr ⟨by omega, ha⟩)⟩
    | send msg => exact ⟨_, _, serviceSlot_answered s i fd r msg (by omega) ha⟩

theorem isReady_of_service (s s1 : Server) (i : Nat) (fd : Int) (rset : Finset Int)
    (h : s1 = dropClient s i fd ∨ s1 = s) (j : Nat) (hj : j ≠ i) :
    isReady s1.clients rset j = isReady s.clients rset j := by
  rcases h with rfl | rfl
  · unfold isReady dropClient
    simp only [List.getElem?_set_ne (Ne.symm hj)]
  · rfl

theorem length_of_service (s s1 : Server) (i : Nat) (fd : Int)
    (h : s1 = dropClient s i fd ∨ s1 = s) : s1.clients.length = s.clients.length := by
  rcases h with rfl | rfl
  · simp [dropClient]
  · rfl

theorem filter_isReady_of_service (s s1 : Server) (i k : Nat) (fd : Int) (rset : Finset Int)
    (h : s1 = dropClient s i fd ∨ s1 = s) :
    (List.range' (i + 1) k).filter (isReady s1.clients rset) =
      (List.range' (i + 1) k).filter (isReady s.clients rset) := by
  apply List.filter_congr
  intro j hj
  have := (List.mem_range'_1.1 hj).1
  exact isReady_of_service s s1 i fd rset h j (by omega)

theorem isReady_after_service (s s1 : Server) (i : Nat) (fd : Int) (rset : Finset Int)
    (h : s1 = dropClient s i fd ∨ s1 = s) (j : Nat) (hj : isReady s1.clients rset j = true) :
    isReady s.clients rset j = true := by
  by_cases hji : j = i
  · rcases h with rfl | rfl
    · exfalso
      subst hji
      unfold isReady dropClient at hj
      by_cases hlt : j < s.clients.length
      · simp [hlt] at hj
      · rw [List.getElem?_eq_none (by simpa using hlt)] at hj
        simp at hj
    · exact hj
  · rw [← isReady_of_service s s1 i fd rset h j hji]
    exact hj

/-- With the countdown started at the number of ready slots ahead, the scan
calls `recv` on exactly those slots, in ascending order. -/
theorem scanClients_spec (rset : Finset Int) (recvOf : Nat → Recv)
    (k i : Nat) (s : Server) (nready : Int) (hb : i + k ≤ s.clients.length)
    (hsafe : ∀ j, isReady s.clients rset j = true → 0 < (recvOf j).n →
      ∃ act, respond (recvOf j).request = .ok act)
    (hn : nready = (((List.range' i k).filter (isReady s.clients rset)).length : Int)) :
    ∃ s1 ev, scanClients rset recvOf k i s nready = .ok (s1, ev) ∧
      recvSlots ev = (List.range' i k).filter (isReady s.clients rset) := by
  induction k generalizing i s nready with
  | zero => exact ⟨s, [], rfl, rfl⟩
  | succ k ih =>
    have hlt : i < s.clients.length := by omega
    have hget : s.clients[i]? = some s.clients[i] := List.getElem?_eq_getElem hlt
    generalize s.clients[i] = fd at hget
    rw [List.range'_succ, List.filter_cons] at hn ⊢
    unfold scanClients
    rw [hget]
    simp only []
    by_cases hneg : fd < 0
    · have hr : isReady s.clients rset i = false := by
        unfold isReady
        rw [hget]
        simp [hneg]
      rw [if_pos hneg]
      rw [hr] at hn ⊢
      simp only [Bool.false_eq_true, if_false] at hn ⊢
      exact ih (i + 1) s nready (by omega) hsafe hn
    · rw [if_neg hneg]
      by_cases hmem : fd ∈ rset
      · have hr : isReady s.clients rset i = true := by
          unfold isReady
          rw [hget]
          simp [hmem, not_lt.1 hneg]
        rw [if_pos hmem]
        rw [hr] at hn ⊢
        simp only [if_true, List.length_cons] at hn ⊢
        obtain ⟨s1, ev1, hs1⟩ := serviceSlot_total s i fd (recvOf i) (hsafe i hr)
        obtain ⟨hcase, hrecv⟩ := serviceSlot_cases s i fd (recvOf i) s1 ev1 hs1
        have hfil := filter_isReady_of_service s s1 i k fd rset hcase
        have hlen := length_of_service s s1 i fd hcase
        rw [hs1]
        simp only []
        by_cases hstop : nready - 1 ≤ 0
        · rw [if_pos hstop]
          have hz : ((List.range' (i + 1) k).filter (isReady s.clients rset)).length = 0 := by
            push_cast at hn
            omega
          rw [List.length_eq_zero.1 hz]
          exact ⟨s1, ev1, rfl, hrecv⟩
        · rw [if_neg hstop]
          obtain ⟨s2, ev2, hs2, hrecv2⟩ := ih (i + 1) s1 (nready - 1) (by omega)
            (fun j hj => hsafe j (isReady_after_service s s1 i fd rset hcase j hj))
            (by rw [hfil]; push_cast at hn; omega)
          rw [hs2]
          refine ⟨s2, ev1 ++ ev2, rfl, ?_⟩
          rw [recvSlots_append, hrecv, hrecv2, hfil]
          rfl
      · have hr : isReady s.clients rset i = false := by
          unfold isReady
          rw [hget]
          simp [hmem]
        rw [if_neg hmem]
        rw [hr] at hn ⊢
        simp only [Bool.false_eq_true, if_false] at hn ⊢
        exact ih (i + 1) s nready (by omega) hsafe hn

/-! ## One cycle of the event loop -/

theorem isReady_iff (clients : List Int) (rset : Finset Int) (i : Nat) :
    isReady clients rset i = true ↔
      ∃ fd, clients[i]? = some fd ∧ 0 ≤ fd ∧ fd ∈ rset := by
  unfold isReady
  cases h : clients[i]? with
  | none => simp
  | some fd => simp

theorem mem_readySlots (s : Server) (rset : Finset Int) (i : Nat) :
    i ∈ readySlots s rset ↔ ∃ fd, s.clients[i]? = some fd ∧ 0 ≤ fd ∧ fd ∈ rset := by
  unfold readySlots
  rw [List.mem_filter, isReady_iff, List.mem_range]
  constructor
  · exact fun h => h.2
  · rintro ⟨fd, h1, h2, h3⟩
    refine ⟨?_, fd, h1, h2, h3⟩
    by_contra hge
    rw [List.getElem?_eq_none (by omega)] at h1
    simp at h1

theorem pairwise_readySlots (s : Server) (rset : Finset Int) :
    (readySlots s rset).Pairwise (fun a b => a < b) :=
  List.Pairwise.filter _ (List.pairwise_lt_range _)

/-- The ready slots are as many as the ready handles other than the listener. -/
theorem length_readySlots (s : Server) (rset : Finset Int) (hinv : Inv s)
    (hsub : rset ⊆ s.allset) :
    (readySlots s rset).length = (rset.erase s.listen_fd).card := by
  have hnd : (readySlots s rset).Nodup := (pairwise_readySlots s rset).imp (fun h => Nat.ne_of_lt h)
  have hinj : ∀ x ∈ readySlots s rset, ∀ y ∈ readySlots s rset,
      s.clients[x]?.getD (-1) = s.clients[y]?.getD (-1) → x = y := by
    intro x hx y hy hxy
    obtain ⟨fx, h1, h2, -⟩ := (mem_readySlots s rset x).1 hx
    obtain ⟨fy, h3, -, -⟩ := (mem_readySlots s rset y).1 hy
    rw [h1, h3] at hxy
    simp only [Option.getD_some] at hxy
    subst hxy
    exact hinv.inj x y fx h1 h3 h2
  have hnd2 := List.Nodup.map_on hinj hnd
  rw [← List.length_map (readySlots s rset) (fun i => s.clients[i]?.getD (-1)),
    ← List.toFinset_card_of_nodup hnd2]
  congr 1
  ext g
  simp only [List.mem_toFinset, List.mem_map, Finset.mem_erase]
  constructor
  · rintro ⟨i, hi, rfl⟩
    obtain ⟨fd, h1, h2, h3⟩ := (mem_readySlots s rset i).1 hi
    rw [h1]
    simp only [Option.getD_some]
    refine ⟨?_, h3⟩
    rintro rfl
    exact hinv.listener (List.mem_iff_getElem?.2 ⟨i, h1⟩)
  · rintro ⟨h1, h2⟩
    rcases (hinv.watch g).1 (hsub h2) with h3 | ⟨h3, h4⟩
    · exact absurd h3 h1
    · obtain ⟨i, hi⟩ := List.mem_iff_getElem?.1 h4
      exact ⟨i, (mem_readySlots s rset i).2 ⟨g, hi, h3, h2⟩, by rw [hi]; rfl⟩

/-- The ready slots all lie in the part of the table that the scan visits. -/
theorem readySlots_eq_scanned (s : Server) (rset : Finset Int) (hinv : Inv s) :
    readySlots s rset =
      (List.range' 0 (s.max_i + 1).toNat).filter (isReady s.clients rset) := by
  have hb := hinv.bound
  obtain ⟨r, hr⟩ : ∃ r, s.clients.length = r + (s.max_i + 1).toNat :=
    ⟨s.clients.length - (s.max_i + 1).toNat, by omega⟩
  unfold readySlots
  rw [List.range_eq_range', hr, ← List.range'_append_1, List.filter_append]
  have hnil : (List.range' (0 + (s.max_i + 1).toNat) r).filter (isReady s.clients rset) = [] := by
    rw [List.filter_eq_nil_iff]
    intro j hj hready
    obtain ⟨fd, h1, h2, -⟩ := (isReady_iff _ _ _).1 hready
    have := hinv.below j fd h1 h2
    have := (List.mem_range'_1.1 hj).1
    omega
  rw [hnil, List.append_nil]

theorem readySlots_register (s : Server) (rset : Finset Int) (connfd : Int) (k : Nat) (c : Int)
    (hk : s.clients[k]? = some c) (hc : c < 0) (hnew : connfd ∉ rset) :
    readySlots (register s k connfd) rset = readySlots s rset := by
  unfold readySlots register
  simp only [List.length_set]
  apply List.filter_congr
  intro j _
  rw [Bool.eq_iff_iff, isReady_iff, isReady_iff]
  constructor
  · rintro ⟨fd, h1, h2, h3⟩
    rcases getElem?_set_some _ _ _ _ _ h1 with ⟨-, h4⟩ | ⟨-, h4⟩
    · exact absurd (h4 ▸ h3) hnew
    · exact ⟨fd, h4, h2, h3⟩
  · rintro ⟨fd, h1, h2, h3⟩
    have hjk : j ≠ k := by
      rintro rfl
      rw [hk] at h1
      simp only [Option.some.injEq] at h1
      omega
    exact ⟨fd, by rw [List.getElem?_set_ne (Ne.symm hjk)]; exact h1, h2, h3⟩

theorem readySlots_accept (s : Server) (rset : Finset Int) (connfd : Int) (s1 : Server)
    (ev : List Event) (hsub : rset ⊆ s.allset) (hfresh : connfd < 0 ∨ connfd ∉ s.allset)
    (hs : acceptStep s connfd = .ok (s1, ev)) :
    readySlots s1 rset = readySlots s rset := by
  rcases acceptStep_cases s connfd s1 ev hs with ⟨rfl, -⟩ | ⟨k, c, hk, hc, -, hpos, -, rfl, -⟩
  · rfl
  · exact readySlots_register s rset connfd k c hk hc
      (fun h => (hfresh.resolve_left (not_lt.2 hpos)) (hsub h))

theorem recvSlots_accept (s : Server) (connfd : Int) (s1 : Server) (ev : List Event)
    (hs : acceptStep s connfd = .ok (s1, ev)) : recvSlots ev = [] := by
  rcases acceptStep_cases s connfd s1 ev hs with ⟨-, h⟩ | ⟨k, c, -, -, -, -, -, -, rfl⟩
  · exact h
  · rfl

/-- The block after `accept` runs without fault when the handle returned is
below `FD_SETSIZE`. -/
theorem acceptStep_total (s : Server) (connfd : Int) (h : connfd < (s.FD_SETSIZE : Int)) :
    ∃ s1 ev, acceptStep s connfd = .ok (s1, ev) := by
  by_cases hneg : connfd < 0
  · exact ⟨_, _, acceptStep_neg s connfd hneg⟩
  have hpos : 0 ≤ connfd := not_lt.1 hneg
  by_cases hfull : ∀ c ∈ s.clients, 0 ≤ c
  · exact ⟨_, _, acceptStep_full s connfd hpos hfull⟩
  have hex : ∃ c ∈ s.clients, c < 0 := by
    by_contra hcon
    apply hfull
    intro c hc
    by_contra hc0
    exact hcon ⟨c, hc, not_le.1 hc0⟩
  obtain ⟨k, c, hk, hc, hlow⟩ := exists_lowest_free s.clients hex
  exact ⟨_, _, acceptStep_free s connfd hpos k c hk hc hlow h⟩

/-- In a state with the invariant a slot is free: the registered handles and
the listening handle are distinct and below `FD_SETSIZE`, the number of slots. -/
theorem exists_free_slot (s : Server) (hinv : Inv s) : ∃ c ∈ s.clients, c < 0 := by
  by_contra hcon
  have hfull : ∀ c ∈ s.clients, 0 ≤ c := by
    intro c hc
    by_contra hc0
    exact hcon ⟨c, hc, not_le.1 hc0⟩
  have hlen := length_readySlots s s.allset hinv (Finset.Subset.refl _)
  have hall : readySlots s s.allset = List.range s.clients.length := by
    unfold readySlots
    rw [List.filter_eq_self]
    intro i hi
    have hlt : i < s.clients.length := List.mem_range.1 hi
    rw [isReady_iff]
    have hm : s.clients[i] ∈ s.clients := List.getElem_mem hlt
    exact ⟨s.clients[i], List.getElem?_eq_getElem hlt, hfull _ hm,
      (hinv.watch _).2 (Or.inr ⟨hfull _ hm, hm⟩)⟩
  rw [hall, List.length_range] at hlen
  have hl : s.listen_fd ∈ s.allset := (hinv.watch _).2 (Or.inl rfl)
  have hsub : s.allset ⊆ Finset.Ico (0 : Int) (s.clients.length : Int) := by
    intro fd hfd
    rw [Finset.mem_Ico]
    refine ⟨?_, hinv.inRange fd hfd⟩
    rcases (hinv.watch fd).1 hfd with h1 | h1
    · rw [h1]
      exact hinv.lpos
    · exact h1.1
  have hcard := Finset.card_le_card hsub
  rw [Int.card_Ico] at hcard
  have hpos := Finset.card_pos.2 ⟨_, hl⟩
  rw [Finset.card_erase_of_mem hl] at hlen
  simp only [sub_zero, Int.toNat_ofNat] at hcard
  omega

theorem scanClients_reachable (rset : Finset Int) (recvOf : Nat → Recv) (k i : Nat)
    (s : Server) (nready : Int) (s1 : Server) (ev : List Event) (hs : Reachable s)
    (h : scanClients rset recvOf k i s nready = .ok (s1, ev)) : Reachable s1 := by
  induction k generalizing i s nready ev s1 with
  | zero =>
    simp only [scanClients, Res.ok.injEq, Prod.mk.injEq] at h
    exact h.1 ▸ hs
  | succ k ih =>
    unfold scanClients at h
    cases hget : s.clients[i]? with
    | none => rw [hget] at h; simp at h
    | some fd =>
      rw [hget] at h
      simp only [] at h
      by_cases hneg : fd < 0
      · rw [if_pos hneg] at h
        exact ih _ _ _ _ _ hs h
      rw [if_neg hneg] at h
      by_cases hmem : fd ∈ rset
      · rw [if_pos hmem] at h
        cases hsv : serviceSlot s i fd (recvOf i) with
        | fault f => rw [hsv] at h; simp at h
        | ok p =>
          obtain ⟨s2, ev2⟩ := p
          have hs2 : Reachable s2 :=
            Reachable.step s s2 hs (Step.service s i fd (recvOf i) s2 ev2 hget (not_lt.1 hneg) hsv)
          rw [hsv] at h
          simp only [] at h
          by_cases hstop : nready - 1 ≤ 0
          · rw [if_pos hstop] at h
            simp only [Res.ok.injEq, Prod.mk.injEq] at h
            exact h.1 ▸ hs2
          · rw [if_neg hstop] at h
            cases hrec : scanClients rset recvOf k (i + 1) s2 (nready - 1) with
            | fault f => rw [hrec] at h; simp at h
            | ok q =>
              obtain ⟨s3, ev3⟩ := q
              rw [hrec] at h
              simp only [Res.ok.injEq, Prod.mk.injEq] at h
              exact h.1 ▸ ih _ _ _ _ _ hs2 hrec
      · rw [if_neg hmem] at h
        exact ih _ _ _ _ _ hs h

/-- A cycle of the event loop that runs without fault and in which `accept`
returns a handle that is not open leads from a reachable state to a reachable
state: the cycle is made of steps of `Step`. -/
theorem cycle_reachable (s : Server) (e : Env) (s1 : Server) (ev : List Event)
    (hs : Reachable s) (hfresh : e.connfd < 0 ∨ e.connfd ∉ s.allset)
    (h : cycle s e = .ok (s1, ev)) : Reachable s1 := by
  unfold cycle at h
  by_cases h1 : e.nready < 0
  · rw [if_pos h1] at h
    by_cases h4 : e.eintr = true
    · rw [if_pos h4] at h
      simp only [Res.ok.injEq, Prod.mk.injEq] at h
      exact h.1 ▸ hs
    · rw [if_neg h4] at h
      simp at h
  rw [if_neg h1] at h
  by_cases h2 : s.listen_fd ∈ e.rset
  · rw [if_pos h2] at h
    cases hacc : acceptStep s e.connfd with
    | fault f => rw [hacc] at h; simp at h
    | ok p =>
      obtain ⟨sa, eva⟩ := p
      have hra : Reachable sa :=
        Reachable.step _ _ hs (Step.accept s e.connfd sa eva hfresh hacc)
      rw [hacc] at h
      simp only [] at h
      by_cases h3 : e.nready - 1 ≤ 0
      · rw [if_pos h3] at h
        simp only [Res.ok.injEq, Prod.mk.injEq] at h
        exact h.1 ▸ hra
      · rw [if_neg h3] at h
        cases hrec : scanClients e.rset e.recvOf (sa.max_i + 1).toNat 0 sa (e.nready - 1) with
        | fault f => rw [hrec] at h; simp at h
        | ok q =>
          obtain ⟨s3, ev3⟩ := q
          rw [hrec] at h
          simp only [Res.ok.injEq, Prod.mk.injEq] at h
          exact h.1 ▸ scanClients_reachable _ _ _ _ _ _ _ _ hra hrec
  · rw [if_neg h2] at h
    exact scanClients_reachable _ _ _ _ _ _ _ _ hs h

/-- The countdown of the ready handles is right when nothing ends the run: in
a cycle started in a reachable state, with `nready` the number of handles in
the ready set, every ready handle being the listener or a registered handle,
`accept` returning a handle that is not open and is below `FD_SETSIZE`, and
every request read from a ready slot being one that `respond` answers, the
effects of the cycle are those of the accept block (when the listener is ready)
followed by those of the client scan, and the scan calls `recv` on exactly the
slots of the registered connections whose handle is ready, each once and in
ascending order, which are no more than `nready`. -/
theorem cycle_services_ready (s : Server) (e : Env) (hs : Reachable s)
    (hn : e.nready = (e.rset.card : Int)) (hsub : e.rset ⊆ s.allset)
    (hfresh : e.connfd < 0 ∨ e.connfd ∉ s.allset)
    (hfd : e.connfd < (s.FD_SETSIZE : Int))
    (hsafe : ∀ i ∈ readySlots s e.rset, 0 < (e.recvOf i).n →
      ∃ act, respond (e.recvOf i).request = .ok act) :
    ∃ s1 evAccept evScan,
      cycle s e = .ok (s1, evAccept ++ evScan) ∧
      (s.listen_fd ∈ e.rset → ∃ sa, acceptStep s e.connfd = .ok (sa, evAccept)) ∧
      (s.listen_fd ∉ e.rset → evAccept = []) ∧
      recvSlots evAccept = [] ∧
      recvSlots evScan = readySlots s e.rset ∧
      (∀ i, i ∈ readySlots s e.rset ↔
        ∃ fd, s.clients[i]? = some fd ∧ 0 ≤ fd ∧ fd ∈ e.rset) ∧
      (readySlots s e.rset).Pairwise (fun a b => a < b) ∧
      ((readySlots s e.rset).length : Int) ≤ e.nready := by
  have hinv := inv_of_reachable s hs
  have hlen := length_readySlots s e.rset hinv hsub
  have hcard : ((readySlots s e.rset).length : Int) ≤ e.nready := by
    rw [hn, hlen]
    exact_mod_cast Finset.card_le_card (Finset.erase_subset _ _)
  have hnn : ¬ e.nready < 0 := by
    rw [hn]
    omega
  by_cases hl : s.listen_fd ∈ e.rset
  · obtain ⟨sa, eva, hacc⟩ := acceptStep_total s e.connfd hfd
    have hinv1 := inv_accept s e.connfd sa eva hinv hfresh hacc
    have hrs := readySlots_accept s e.rset e.connfd sa eva hsub hfresh hacc
    have hc1 : e.nready - 1 = ((readySlots s e.rset).length : Int) := by
      rw [hn, hlen, Finset.card_erase_of_mem hl]
      have := Finset.card_pos.2 ⟨_, hl⟩
      omega
    by_cases hstop : e.nready - 1 ≤ 0
    · have hz : (readySlots s e.rset).length = 0 := by omega
      refine ⟨sa, eva, [], ?_, fun _ => ⟨sa, hacc⟩, fun h => absurd hl h,
        recvSlots_accept s e.connfd sa eva hacc, ?_, mem_readySlots s e.rset,
        pairwise_readySlots s e.rset, hcard⟩
      · unfold cycle
        rw [if_neg hnn, if_pos hl, hacc]
        simp only []
        rw [if_pos hstop, List.append_nil]
      · rw [List.length_eq_zero.1 hz]
        rfl
    · obtain ⟨s2, ev2, hscan, hrecv⟩ := scanClients_spec e.rset e.recvOf
        (sa.max_i + 1).toNat 0 sa (e.nready - 1)
        (by have := hinv1.bound; omega)
        (fun j hj => hsafe j (by
          rw [← hrs, mem_readySlots]
          exact (isReady_iff _ _ _).1 hj))
        (by rw [← readySlots_eq_scanned _ _ hinv1, hrs]; exact hc1)
      refine ⟨s2, eva, ev2, ?_, fun _ => ⟨sa, hacc⟩, fun h => absurd hl h,
        recvSlots_accept s e.connfd sa eva hacc, ?_, mem_readySlots s e.rset,
        pairwise_readySlots s e.rset, hcard⟩
      · unfold cycle
        rw [if_neg hnn, if_pos hl, hacc]
        simp only []
        rw [if_neg hstop, hscan]
      · rw [hrecv, ← readySlots_eq_scanned _ _ hinv1, hrs]
  · obtain ⟨s2, ev2, hscan, hrecv⟩ := scanClients_spec e.rset e.recvOf
      (s.max_i + 1).toNat 0 s e.nready (by have := hinv.bound; omega)
      (fun j hj => hsafe j (by
        rw [mem_readySlots]
        exact (isReady_iff _ _ _).1 hj))
      (by rw [← readySlots_eq_scanned _ _ hinv, hn, hlen, Finset.erase_eq_of_not_mem hl])
    refine ⟨s2, [], ev2, ?_, fun h => absurd h hl, fun _ => rfl, rfl, ?_,
      mem_readySlots s e.rset, pairwise_readySlots s e.rset, hcard⟩
    · unfold cycle
      rw [if_neg hnn, if_neg hl, hscan]
      rfl
    · rw [hrecv, ← readySlots_eq_scanned _ _ hinv]

/-! ## Scenarios -/

/-- The state of the first scenario is reached by one accept. -/
theorem demoServer_reachable : Reachable demoServer :=
  Reachable.step _ _ (Reachable.init 3 8 (Server.base 3 8) rfl)
    (Step.accept (Server.base 3 8) 4 demoServer [Event.send 4 welcome] (Or.inr (by decide))
      (acceptStep_free (Server.base 3 8) 4 (by decide) 0 (-1) (by decide) (by decide)
        (fun j hj => absurd hj (Nat.not_lt_zero j)) (by decide)))

/-- The state of the second scenario is reached by a second accept. -/
theorem pairServer_reachable : Reachable pairServer :=
  Reachable.step _ _ demoServer_reachable
    (Step.accept demoServer 5 pairServer [Event.send 5 welcome] (Or.inr (by decide))
      (acceptStep_free demoServer 5 (by decide) 1 (-1) (by decide) (by decide)
        (by decide) (by decide)))

/-- In the first scenario the request `ADD 2 3` on slot 0, handle 4, is
answered and leaves the state as it was, and an end of stream frees the slot. -/
theorem service_frame_witness :
    (((0 : Int) < 8 ∧
        respond (Recv.request { n := 8, data := bytes "ADD 2 3\n" }) =
          .ok (.send (bytes "OK 5.000000\n"))) ∧
      serviceSlot demoServer 0 4 { n := 8, data := bytes "ADD 2 3\n" } =
        .ok (demoServer, [Event.recv 0 4, Event.send 4 (bytes "OK 5.000000\n")])) ∧
    ((0 : Int) ≤ 0 ∧
      ∃ s1, serviceSlot demoServer 0 4 { n := 0, data := [] } =
          .ok (s1, [Event.recv 0 4, Event.close 4]) ∧
        s1.clients = demoServer.clients.set 0 (-1) ∧
        (0 < demoServer.clients.length → s1.clients[0]? = some (-1)) ∧
        (∀ j : Nat, j ≠ 0 → s1.clients[j]? = demoServer.clients[j]?) ∧
        s1.allset = demoServer.allset.erase 4 ∧
        4 ∉ s1.allset ∧
        (∀ g, g ≠ 4 → (g ∈ s1.allset ↔ g ∈ demoServer.allset)) ∧
        s1.max_i = demoServer.max_i ∧ s1.maxfd = demoServer.maxfd ∧
        s1.listen_fd = demoServer.listen_fd) :=
  ⟨⟨⟨by decide, by decide⟩,
      (service_frame demoServer 0 4 { n := 8, data := bytes "ADD 2 3\n" }).1
        (bytes "OK 5.000000\n") (by decide) (by decide)⟩,
    ⟨by decide,
      (service_frame demoServer 0 4 { n := 0, data := [] }).2 (Or.inl (by decide))⟩⟩

/-- C8, the failing input: with the handles 4 and 5 registered in the slots 0
and 1, both ready and `nready` 2, the line of one space read from slot 0 ends
the run in `parser`, and `recv` is never called on slot 1. -/
theorem cycle_aborts_before_ready_slot :
    pairEnv.nready = (pairEnv.rset.card : Int) ∧ pairEnv.rset ⊆ pairServer.allset ∧
      readySlots pairServer pairEnv.rset = [0, 1] ∧
      serviceSlot pairServer 0 4 (pairEnv.recvOf 0) = .fault .nullDeref ∧
      cycle pairServer pairEnv = .fault .nullDeref := by
  decide

/-! ## A server with many connections -/

theorem crowd_listen_fd (n k : Nat) : (crowd n k).listen_fd = 3 := by
  induction k with
  | zero => rfl
  | succ k ih => exact ih

theorem crowd_length (n k : Nat) : (crowd n k).clients.length = n := by
  induction k with
  | zero => simp [crowd, Server.base]
  | succ k ih =>
    show ((crowd n k).clients.set k ((k : Int) + 4)).length = n
    rw [List.length_set, ih]

/-- The slots below `k` hold the handles from 4 on, the others are free. -/
theorem crowd_clients (n k j : Nat) (hk : k ≤ n) :
    (crowd n k).clients[j]? =
      if j < k then some ((j : Int) + 4) else if j < n then some (-1) else none := by
  induction k with
  | zero =>
    show (List.replicate n (-1 : Int))[j]? = _
    rw [List.getElem?_replicate]
    simp
  | succ k ih =>
    have ih := ih (by omega)
    show ((crowd n k).clients.set k ((k : Int) + 4))[j]? = _
    by_cases hjk : j = k
    · subst hjk
      rw [List.getElem?_set_self (by rw [crowd_length]; omega)]
      simp
    · rw [List.getElem?_set_ne (Ne.symm hjk), ih]
      by_cases h1 : j < k
      · simp [h1, Nat.lt_succ_of_lt h1]
      · have h2 : ¬ j < k + 1 := by omega
        simp [h1, h2]

/-- The watch-set holds the handles from 3 to `k + 3`. -/
theorem mem_crowd_allset (n k : Nat) (fd : Int) :
    fd ∈ (crowd n k).allset ↔ 3 ≤ fd ∧ fd < (k : Int) + 4 := by
  induction k with
  | zero =>
    show fd ∈ ({3} : Finset Int) ↔ _
    rw [Finset.mem_singleton]
    omega
  | succ k ih =>
    show fd ∈ insert ((k : Int) + 4) (crowd n k).allset ↔ _
    rw [Finset.mem_insert, ih]
    push_cast
    omega

/-- The servers with many connections are reached by accepts, as long as the
handles are below `FD_SETSIZE`. -/
theorem crowd_reachable (n k : Nat) (h : k + 4 ≤ n) : Reachable (crowd n k) := by
  induction k with
  | zero =>
    refine Reachable.init 3 n _ ?_
    unfold Server.init
    rw [if_neg (by decide), if_neg (by omega)]
    rfl
  | succ k ih =>
    have ih := ih (by omega)
    refine Reachable.step _ _ ih
      (Step.accept (crowd n k) ((k : Int) + 4) _ [Event.send ((k : Int) + 4) welcome]
        (Or.inr ?_) ?_)
    · rw [mem_crowd_allset]
      omega
    · refine acceptStep_free (crowd n k) ((k : Int) + 4) (by omega) k (-1) ?_ (by decide) ?_ ?_
      · rw [crowd_clients n k k (by omega)]
        simp
        omega
      · intro j hj d hd
        rw [crowd_clients n k j (by omega), if_pos hj] at hd
        simp only [Option.some.injEq] at hd
        omega
      · show (k : Int) + 4 < (((crowd n k).clients.length : Nat) : Int)
        rw [crowd_length]
        omega

theorem insertLoop_stores (connfd : Int) (l : List Int) (k : Nat) (c : Int)
    (hk : l[k]? = some c) (hc : c < 0) (hlow : ∀ j < k, ∀ d, l[j]? = some d → 0 ≤ d) :
    (insertLoop connfd l 0).1[k]? = some connfd := by
  rw [insertLoop_free connfd l 0 k c hk hc hlow]
  exact List.getElem?_set_self (lt_length_of_getElem? l k c hk)

theorem cycle_of_accept_fault (s : Server) (e : Env) (f : Fault) (hn : ¬ e.nready < 0)
    (hl : s.listen_fd ∈ e.rset) (h : acceptStep s e.connfd = .fault f) :
    cycle s e = .fault f := by
  unfold cycle
  rw [if_neg hn, if_pos hl, h]

/-- In every state the event loop reaches a slot is free, so that the block
after `accept` never takes the branch that refuses the connection. -/
theorem reachable_free_slot (s : Server) (h : Reachable s) : ∃ c ∈ s.clients, c < 0 :=
  exists_free_slot s (inv_of_reachable s h)

/-- C6, the failing input: with an `FD_SETSIZE` of 1024, the listening socket
on handle 3 and 1020 connections on the handles 4 to 1023, which is a state the
loop reaches, slot 1020 is the lowest free slot and `accept` returns the handle
1024, which is not open; the handle is not refused, and `FD_SET` writes past
the watch-set. -/
theorem accept_past_fd_setsize :
    Reachable (crowd 1024 1020) ∧
      (crowd 1024 1020).FD_SETSIZE = 1024 ∧
      (crowd 1024 1020).clients[1020]? = some (-1) ∧
      (∀ j < 1020, ∀ d, (crowd 1024 1020).clients[j]? = some d → 0 ≤ d) ∧
      (1024 : Int) ∉ (crowd 1024 1020).allset ∧
      acceptStep (crowd 1024 1020) 1024 = .fault .outOfBounds := by
  have hk : (crowd 1024 1020).clients[1020]? = some (-1) := by
    rw [crowd_clients 1024 1020 1020 (by decide)]
    rfl
  have hlow : ∀ j < 1020, ∀ d, (crowd 1024 1020).clients[j]? = some d → 0 ≤ d := by
    intro j hj d hd
    rw [crowd_clients 1024 1020 j (by decide), if_pos hj] at hd
    simp only [Option.some.injEq] at hd
    omega
  have hsz : (crowd 1024 1020).FD_SETSIZE = 1024 := crowd_length 1024 1020
  refine ⟨crowd_reachable 1024 1020 (by decide), hsz, hk, hlow, ?_, ?_⟩
  · rw [mem_crowd_allset]
    omega
  · exact acceptStep_overflow _ 1024 1020 (-1) hk (by decide) hlow (by rw [hsz]; decide)

/-- C9, the failing input: in the state of 1020 connections, which the loop
reaches, a cycle in which `accept` returns the handle 1024, which is not open,
stores the handle in the table and then writes past the watch-set instead of
adding the handle to it. -/
theorem watch_set_overflow :
    Reachable (crowd 1024 1020) ∧
      overflowEnv.connfd ∉ (crowd 1024 1020).allset ∧
      (insertLoop overflowEnv.connfd (crowd 1024 1020).clients 0).1[1020]? = some 1024 ∧
      cycle (crowd 1024 1020) overflowEnv = .fault .outOfBounds := by
  have hk : (crowd 1024 1020).clients[1020]? = some (-1) := by
    rw [crowd_clients 1024 1020 1020 (by decide)]
    rfl
  have hlow : ∀ j < 1020, ∀ d, (crowd 1024 1020).clients[j]? = some d → 0 ≤ d := by
    intro j hj d hd
    rw [crowd_clients 1024 1020 j (by decide), if_pos hj] at hd
    simp only [Option.some.injEq] at hd
    omega
  have hsz : (crowd 1024 1020).FD_SETSIZE = 1024 := crowd_length 1024 1020
  have hacc : acceptStep (crowd 1024 1020) 1024 = .fault .outOfBounds :=
    acceptStep_overflow _ 1024 1020 (-1) hk (by decide) hlow (by rw [hsz]; decide)
  refine ⟨crowd_reachable 1024 1020 (by decide), ?_, ?_, ?_⟩
  · show (1024 : Int) ∉ (crowd 1024 1020).allset
    rw [mem_crowd_allset]
    omega
  · exact insertLoop_stores 1024 _ 1020 (-1) hk (by decide) hlow
  · have h3 : (crowd 1024 1020).listen_fd ∈ overflowEnv.rset := by
      rw [crowd_listen_fd]
      decide
    exact cycle_of_accept_fault _ overflowEnv _ (by decide) h3 hacc

end CalcServer
